import Mathlib

/-!
Verification model of `src/list.hpp`: a fixed-capacity bump arena
(`StackStorage`), a rebindable allocator adaptor over it (`StackAllocator`),
and a sentinel-based circular doubly linked list (`List`).

The C++ code is embedded shallowly:
* the arena becomes a record holding the capacity `N` and the bump cursor
  `start_index_`; `allocate` returns the byte offset of the region inside the
  buffer (the C++ code returns `buffer_ + start_index_ - count`);
* the allocator adaptor stores the identity (address) of the arena it
  references, and its `allocate` is the arena computation applied to the
  referenced arena's state;
* the list lives in an explicit heap: node addresses are positive naturals,
  the heap maps addresses to `(next, prev, val)` records mirroring
  `Node : BaseNode`, and every mutation of `list.hpp` becomes an explicit
  field write performed in exactly the order of the C++ statements.
  Exceptions (`std::bad_alloc` from allocation, or a throwing payload
  constructor) are modelled by an oracle `FailMode` and `Except` results.
-/

namespace ListHpp

/-- Model of `StackStorage<N>`: the fixed capacity `N` and the bump cursor
`start_index_` (bytes of the buffer consumed so far). The byte buffer itself
carries no information the claims need, so a region is identified by its
starting offset inside the buffer. -/
structure StackStorage where
  N : Nat
  start_index_ : Nat
deriving DecidableEq

/-- Model of `StackStorage::allocate(count, alignment)`, line for line:
advance the cursor by `count`, pad it forward so that the new cursor is a
multiple of `alignment`, and fail (rolling the cursor back) when the advanced
cursor reaches or exceeds `N`. On success the returned offset is
`start_index_ - count`, i.e. the region ends exactly at the new cursor. -/
def StackStorage.allocate (s : StackStorage) (count alignment : Nat) :
    Except StackStorage (StackStorage × Nat) :=
  let at_start := s.start_index_
  let i1 := s.start_index_ + count
  let i2 := i1 + (alignment - i1 % alignment) % alignment
  let at_end := i2
  if N ≤ at_end then
    .error { s with start_index_ := at_start }
  else
    .ok ({ s with start_index_ := i2 }, i2 - count)
where N := s.N

/-- Model of `StackAllocator<T, N>`: it holds only `stack_storage_`, a
non-owning pointer to the arena, modelled by the arena's identity
(its address, a natural number). The element type is a phantom parameter:
it plays no role in the stored state, exactly as in the C++ class. -/
structure StackAllocator (T : Type) where
  stack_storage_ : Nat

/-- Model of the converting constructor
`StackAllocator(const StackAllocator<U, N>&)` (also the result of
`rebind<U>::other{other}`): the new adaptor references the same arena. -/
def StackAllocator.ofOther {U T : Type} (other : StackAllocator U) :
    StackAllocator T :=
  ⟨other.stack_storage_⟩

/-- Model of `StackAllocator::operator==`: compares `get_storage()` pointers,
i.e. arena identities, regardless of the element types of the two sides. -/
def StackAllocator.op_eq {T U : Type} (a : StackAllocator T)
    (b : StackAllocator U) : Bool :=
  a.stack_storage_ == b.stack_storage_

/-- Model of `StackAllocator::operator!=`. -/
def StackAllocator.op_ne {T U : Type} (a : StackAllocator T)
    (b : StackAllocator U) : Bool :=
  a.stack_storage_ != b.stack_storage_

/-- Model of `StackAllocator<T, N>::allocate(count)`: forwards
`count * sizeof(T)` bytes with alignment `alignof(T)` to the referenced
arena. The arena state is passed explicitly (the C++ code reaches it through
`stack_storage_`); `sizeofT` and `alignofT` stand for the compile-time
constants `sizeof(T)` and `alignof(T)`. -/
def StackAllocator.allocate (s : StackStorage) (sizeofT alignofT count : Nat) :
    Except StackStorage (StackStorage × Nat) :=
  s.allocate (count * sizeofT) alignofT

/-- Run a sequence of `StackStorage::allocate` requests `(count, alignment)`;
`some (final_state, regions)` when every call succeeds, where each region is
reported as `(offset, count)`. -/
def StackStorage.runAllocs (s : StackStorage) :
    List (Nat × Nat) → Option (StackStorage × List (Nat × Nat))
  | [] => some (s, [])
  | (count, alignment) :: rest =>
    match s.allocate count alignment with
    | .error _ => none
    | .ok (s', off) =>
      match s'.runAllocs rest with
      | none => none
      | some (sf, regs) => some (sf, (off, count) :: regs)

/-- One heap cell, merging `List::BaseNode` (the `next`/`prev` links) with
`List::Node` (the payload). The sentinel `head_` is a bare `BaseNode`, so the
payload is an `Option`: `none` models the absence of a constructed `T`.
Null pointers are modelled by the address `0`, which is never allocated. -/
structure Node (T : Type) where
  next : Nat
  prev : Nat
  val : Option T

/-- The memory the list lives in: `mem` maps addresses to nodes, `ctr` is the
next fresh address (every address handed out so far is `< ctr`, and the model
allocator never reuses an address — the arena allocator of the source never
does either, since `deallocate` is a no-op), and `live` records the addresses
currently held from the node allocator (allocated and not yet deallocated),
most recent first. -/
structure Heap (T : Type) where
  mem : Nat → Node T
  ctr : Nat
  live : List Nat

/-- Write the `next` field of the node at address `a` (a C++ `x->next = v`). -/
def Heap.setNext (h : Heap T) (a v : Nat) : Heap T :=
  { h with mem := fun b => if b = a then { h.mem a with next := v } else h.mem b }

/-- Write the `prev` field of the node at address `a` (a C++ `x->prev = v`). -/
def Heap.setPrev (h : Heap T) (a v : Nat) : Heap T :=
  { h with mem := fun b => if b = a then { h.mem a with prev := v } else h.mem b }

/-- Write the payload of the node at address `a` (construction/destruction of
the `value` member). -/
def Heap.setVal (h : Heap T) (a : Nat) (v : Option T) : Heap T :=
  { h with mem := fun b => if b = a then { h.mem a with val := v } else h.mem b }

/-- Overwrite the whole node at address `a`. -/
def Heap.writeNode (h : Heap T) (a : Nat) (n : Node T) : Heap T :=
  { h with mem := fun b => if b = a then n else h.mem b }

/-- The public state of one `List` object: the address of its embedded
sentinel `head_` and its `size_` field. (The allocator members carry no state
the claims need: the heap is global.) -/
structure ListS where
  head_ : Nat
  size_ : Nat
deriving DecidableEq

/-- Model of the default constructor `List()` (and of `List(const Alloc&)`):
the list object is placed at a fresh address and
`head_ = BaseNode(&head_, &head_)` makes the sentinel its own neighbor.
The sentinel is part of the `List` object itself, so it is *not* recorded in
`live` (it does not come from the node allocator). -/
def mkList (h : Heap T) : Heap T × ListS :=
  let s := h.ctr
  let h1 : Heap T := { mem := h.mem, ctr := h.ctr + 1, live := h.live }
  let h2 := h1.writeNode s ⟨s, s, none⟩
  (h2, ⟨s, 0⟩)

/-- Failure oracle for one `InsertHelper` call: the node allocation may throw
(`std::bad_alloc` out of capacity), or the payload construction may throw. -/
inductive FailMode where
  | ok
  | allocFail
  | ctorFail
deriving DecidableEq

/-- The success path of `List::InsertHelper(it, value)`, statement by
statement: allocate one `Node` at a fresh address, construct it
(`Node(value)` default-initializes the `BaseNode` part to null and
copy-constructs the payload), then splice it before `pos`:
`prev = it.node_->prev; next = it.node_; new_node->prev = prev;
new_node->next = next; next->prev = new_node; prev->next = new_node; ++size_`. -/
def insertLink (h : Heap T) (l : ListS) (pos : Nat) (v : T) : Heap T × ListS :=
  let new_node := h.ctr
  let h1 : Heap T := { mem := h.mem, ctr := h.ctr + 1, live := new_node :: h.live }
  let h2 := h1.writeNode new_node ⟨0, 0, some v⟩
  let prev := (h2.mem pos).prev
  let next := pos
  let h3 := h2.setPrev new_node prev
  let h4 := h3.setNext new_node next
  let h5 := h4.setPrev next new_node
  let h6 := h5.setNext prev new_node
  (h6, { l with size_ := l.size_ + 1 })

/-- Model of `List::InsertHelper`, with the failure oracle. On `allocFail`
the arena rolled its cursor back and the exception propagates with nothing
changed. On `ctorFail` the node was allocated, the payload constructor threw,
and the `catch` block deallocates the node through the node allocator before
rethrowing — so `live` is unchanged and no link or size was touched. -/
def InsertHelper (h : Heap T) (l : ListS) (pos : Nat) (v : T) (fm : FailMode) :
    Except (Heap T × ListS) (Heap T × ListS) :=
  match fm with
  | .allocFail => .error (h, l)
  | .ctorFail =>
    let new_node := h.ctr
    let h1 : Heap T := { mem := h.mem, ctr := h.ctr + 1, live := new_node :: h.live }
    let h2 : Heap T := { h1 with live := h1.live.erase new_node }
    .error (h2, l)
  | .ok => .ok (insertLink h l pos v)

/-- Model of `List::erase(it)`, statement by statement:
`it.node_->next->prev = it.node_->prev; it.node_->prev->next = it.node_->next`,
then destroy the payload and deallocate the node via the node allocator, and
`--size_`. -/
def erase (h : Heap T) (l : ListS) (pos : Nat) : Heap T × ListS :=
  let h1 := h.setPrev (h.mem pos).next (h.mem pos).prev
  let h2 := h1.setNext (h1.mem pos).prev (h1.mem pos).next
  let h3 := h2.setVal pos none
  let h4 : Heap T := { h3 with live := h3.live.erase pos }
  (h4, { l with size_ := l.size_ - 1 })

/-- Model of `List::push_back(value)`: `insert(end(), value)`; `end()` is the sentinel. -/
def push_back (h : Heap T) (l : ListS) (v : T) : Heap T × ListS :=
  insertLink h l l.head_ v

/-- Model of `List::push_front(value)`: `insert(begin(), value)`;
`begin()` is `head_.next`. -/
def push_front (h : Heap T) (l : ListS) (v : T) : Heap T × ListS :=
  insertLink h l ((h.mem l.head_).next) v

/-- Model of `List::pop_back()`: `erase(--end())`, i.e. erase at `head_.prev`. -/
def pop_back (h : Heap T) (l : ListS) : Heap T × ListS :=
  erase h l ((h.mem l.head_).prev)

/-- Model of `List::pop_front()`: `erase(begin())`, i.e. erase at `head_.next`. -/
def pop_front (h : Heap T) (l : ListS) : Heap T × ListS :=
  erase h l ((h.mem l.head_).next)

/-- Model of `List::Swap(other)`, statement by statement. The member
`std::swap`s on `size_` (and the allocators) are reflected in the returned
`ListS` pair; the `std::swap(head_, other.head_)` exchanges the two embedded
`BaseNode`s' fields, and the final two `std::swap`s exchange
`head_.next->prev` with `other.head_.next->prev` and
`head_.prev->next` with `other.head_.prev->next`, reading the operand
addresses from the already-updated memory exactly as the C++ does. -/
def Swap (h : Heap T) (l other : ListS) : Heap T × ListS × ListS :=
  let s0 := l.head_
  let s1 := other.head_
  let n0 := h.mem s0
  let n1 := h.mem s1
  let h1 := (h.setNext s0 n1.next).setPrev s0 n1.prev
  let h2 := (h1.setNext s1 n0.next).setPrev s1 n0.prev
  let x := (h2.mem s0).next
  let y := (h2.mem s1).next
  let vx := (h2.mem x).prev
  let vy := (h2.mem y).prev
  let h3 := (h2.setPrev x vy).setPrev y vx
  let p := (h3.mem s0).prev
  let q := (h3.mem s1).prev
  let wp := (h3.mem p).next
  let wq := (h3.mem q).next
  let h4 := (h3.setNext p wq).setNext q wp
  (h4, ⟨s0, other.size_⟩, ⟨s1, l.size_⟩)

/-- Model of `List::Destroy(size)`: `size` times `pop_back()`. -/
def Destroy (h : Heap T) (l : ListS) : Nat → Heap T × ListS
  | 0 => (h, l)
  | n + 1 =>
    let p := pop_back h l
    Destroy p.1 p.2 n

/-- Forward traversal by repeated `operator++` (`node_ = node_->next`),
collecting the visited addresses until the iterator reaches `stop` (the
sentinel for a full `begin()`-to-`end()` walk); `fuel` bounds the walk. -/
def fwdAddrs (h : Heap T) (stop : Nat) : Nat → Nat → List Nat
  | _, 0 => []
  | a, fuel + 1 =>
    if a = stop then [] else a :: fwdAddrs h stop ((h.mem a).next) fuel

/-- Backward traversal by repeated `operator--` (`node_ = node_->prev`), as
performed by the reverse iterators. -/
def bwdAddrs (h : Heap T) (stop : Nat) : Nat → Nat → List Nat
  | _, 0 => []
  | a, fuel + 1 =>
    if a = stop then [] else a :: bwdAddrs h stop ((h.mem a).prev) fuel

/-- The node reached from `a` by `n` applications of `operator++`. -/
def stepN (h : Heap T) : Nat → Nat → Nat
  | a, 0 => a
  | a, n + 1 => stepN h ((h.mem a).next) n

/-- The payloads stored at a list of addresses. -/
def elemsOf (h : Heap T) (addrs : List Nat) : List (Option T) :=
  addrs.map fun a => (h.mem a).val

/-- The observable element sequence of a list: dereference the `size_` nodes
visited from `begin()`. -/
def toSeq (h : Heap T) (l : ListS) : List (Option T) :=
  elemsOf h (fwdAddrs h l.head_ ((h.mem l.head_).next) l.size_)

/-- The population loop shared by `List(size_t, const Alloc&)`,
`List(size_t, const T&, const Alloc&)` and the element loop of the copy
constructor pattern: push `v` to the back `n` times. The call numbered
`failAt` (counting from 0) runs with failure oracle `fm`, every other call
succeeds. An `error` result is the exception escaping the loop, carrying the
state reached so far. -/
def fillLoop (h : Heap T) (l : ListS) (v : T) :
    Nat → Nat → FailMode → Except (Heap T × ListS) (Heap T × ListS)
  | 0, _, _ => .ok (h, l)
  | n + 1, failAt, fm =>
    match InsertHelper h l l.head_ v (if failAt = 0 then fm else .ok) with
    | .error e => .error e
    | .ok (h', l') => fillLoop h' l' v n (failAt - 1) fm

/-- Model of `List(size, value, alloc)` (and, with `v` the
default-constructed value, of `List(size, alloc)`): start from a fresh empty
list and `push_back(value)` `size` times; if an insert throws, the `catch`
block runs `Destroy(count)` on the `count` elements built so far and
rethrows, so the error result carries only the heap. -/
def ctorFill (h : Heap T) (v : T) (size failAt : Nat) (fm : FailMode) :
    Except (Heap T) (Heap T × ListS) :=
  let p := mkList h
  match fillLoop p.1 p.2 v size failAt fm with
  | .ok r => .ok r
  | .error (h2, l2) => .error (Destroy h2 l2 l2.size_).1

/-- The element loop of the copy constructor and of `operator=`:
`for (const auto& value : other) push_back(value);` — iterate over the source
addresses, reading each payload from the heap at the moment it is pushed.
The call numbered `failAt` runs with oracle `fm`. -/
def copyLoop [Inhabited T] (h : Heap T) (l : ListS) :
    List Nat → Nat → FailMode → Except (Heap T × ListS) (Heap T × ListS)
  | [], _, _ => .ok (h, l)
  | a :: rest, failAt, fm =>
    let v := ((h.mem a).val).getD default
    match InsertHelper h l l.head_ v (if failAt = 0 then fm else .ok) with
    | .error e => .error e
    | .ok (h', l') => copyLoop h' l' rest (failAt - 1) fm

/-- Model of the copy constructor `List(const List&)`: a fresh empty list is
populated from the source's forward sequence; on a failure the `catch` block
destroys the `count` elements built so far and rethrows. -/
def copy_ctor [Inhabited T] (h : Heap T) (src : ListS) (failAt : Nat)
    (fm : FailMode) : Except (Heap T) (Heap T × ListS) :=
  let srcAddrs := fwdAddrs h src.head_ ((h.mem src.head_).next) src.size_
  let p := mkList h
  match copyLoop p.1 p.2 srcAddrs failAt fm with
  | .ok r => .ok r
  | .error (h2, l2) => .error (Destroy h2 l2 l2.size_).1

/-- Model of `List::operator=(const List& other)`: build a local
`new_list` (fresh empty list), push every element of `other` onto it, then
`Swap(new_list)` and let `new_list`'s destructor (`Destroy(size_)`) tear down
the old contents at scope exit. If a `push_back` throws, stack unwinding runs
`new_list`'s destructor on the part built so far and the exception propagates
with `*this` untouched (the error result returns `tgt` unchanged). -/
def op_assign [Inhabited T] (h : Heap T) (tgt src : ListS) (failAt : Nat)
    (fm : FailMode) : Except (Heap T × ListS) (Heap T × ListS) :=
  let srcAddrs := fwdAddrs h src.head_ ((h.mem src.head_).next) src.size_
  let p := mkList h
  match copyLoop p.1 p.2 srcAddrs failAt fm with
  | .error (h2, nl2) => .error ((Destroy h2 nl2 nl2.size_).1, tgt)
  | .ok (h2, nl2) =>
    let q := Swap h2 tgt nl2
    .ok ((Destroy q.1 q.2.2 q.2.2.size_).1, q.2.1)

/-- Predicate `link h x y`: node `x`'s `next` is `y` and node `y`'s `prev` is `x` —
one doubly linked edge of the ring. -/
def link (h : Heap T) (x y : Nat) : Prop :=
  (h.mem x).next = y ∧ (h.mem y).prev = x

/-- Predicate `chain h p l q`: the addresses `p`, `l…`, `q` are consecutively doubly
linked. `chain h s addrs s` says the sentinel `s` and the payload nodes
`addrs` form the circular ring of the list. -/
def chain (h : Heap T) : Nat → List Nat → Nat → Prop
  | p, [], q => link h p q
  | p, a :: l, q => link h p a ∧ chain h a l q

/-- Well-formedness of a list whose payload nodes are `addrs`, in order:
the sentinel and the payload nodes form a circular doubly linked ring
(every node `X` on it satisfies `X.next.prev == X` and `X.prev.next == X`),
the addresses are pairwise distinct, `size_` counts the payload nodes, every
node of the ring has been allocated, and every payload holds a constructed
value. -/
structure WF (h : Heap T) (l : ListS) (addrs : List Nat) : Prop where
  ring : chain h l.head_ addrs l.head_
  nodup : (l.head_ :: addrs).Nodup
  size_eq : l.size_ = addrs.length
  bound : ∀ a ∈ l.head_ :: addrs, a < h.ctr
  vals : ∀ a ∈ addrs, ((h.mem a).val).isSome

/-- Exchange the roles of `next` and `prev` in a heap. `operator--` on `h` is
`operator++` on the flipped heap, which lets every backward-traversal fact be
read off from the corresponding forward fact. -/
def flip (h : Heap T) : Heap T :=
  { h with mem := fun a => ⟨(h.mem a).prev, (h.mem a).next, (h.mem a).val⟩ }

/-- A small concrete well-formed one-element list (sentinel at address 1,
payload 7 at address 2) used by the witnesses. -/
def witnessHeap : Heap Nat :=
  ⟨fun a =>
    if a = 1 then ⟨2, 2, none⟩
    else if a = 2 then ⟨1, 1, some 7⟩ else ⟨0, 0, none⟩, 3, [2]⟩

/-- The failing input for the copy-assignment bug: heap
holding `src = [5]` (sentinel 1, payload node 2) and an empty list
`tgt` (sentinel 3). The triple is `(heap, src, tgt)`. -/
def bugScene : Heap Nat × ListS × ListS :=
  let h0 : Heap Nat := ⟨fun _ => ⟨0, 0, none⟩, 1, []⟩
  let p1 := mkList h0
  let p2 := push_back p1.1 p1.2 5
  let p3 := mkList p2.1
  (p3.1, p2.2, p3.2)

/-- The padded cursor is a multiple of the (positive) alignment. -/
theorem align_end_mod (i1 alignment : Nat) (ha : 0 < alignment) :
    (i1 + (alignment - i1 % alignment) % alignment) % alignment = 0 := by
  rcases Nat.eq_zero_or_pos (i1 % alignment) with h0 | hpos
  · simp [h0, Nat.mod_self]
  · have hlt : i1 % alignment < alignment := Nat.mod_lt _ ha
    have hsm : (alignment - i1 % alignment) % alignment =
        alignment - i1 % alignment := Nat.mod_eq_of_lt (by omega)
    rw [hsm]
    have hdm := Nat.div_add_mod i1 alignment
    have : i1 + (alignment - i1 % alignment) =
        alignment * (i1 / alignment + 1) := by
      rw [Nat.mul_add, Nat.mul_one]
      omega
    rw [this]
    exact Nat.mul_mod_right _ _

/-- Anatomy of one successful `StackStorage::allocate` call. -/
theorem StackStorage.allocate_ok_spec (s : StackStorage)
    (count alignment : Nat) (ha : 0 < alignment) (s' : StackStorage)
    (off : Nat) (h : s.allocate count alignment = .ok (s', off)) :
    s'.N = s.N ∧ s.start_index_ ≤ off ∧ off + count = s'.start_index_ ∧
      s'.start_index_ < s.N ∧ s'.start_index_ % alignment = 0 := by
  unfold StackStorage.allocate at h
  simp only [StackStorage.allocate.N] at h
  split at h
  · exact absurd h (by simp)
  · next hlt =>
    have hcases := h
    simp only [Except.ok.injEq, Prod.mk.injEq] at hcases
    obtain ⟨hs', hoff⟩ := hcases
    subst hs'
    refine ⟨rfl, ?_, ?_, by simpa using Nat.lt_of_not_le hlt, ?_⟩
    · omega
    · simp only []
      omega
    · simpa using align_end_mod (s.start_index_ + count) alignment ha

/-- Anatomy of a run of successful calls: final capacity unchanged, cursor
monotone, all regions inside `[start, final cursor)`, pairwise ordered
(hence non-overlapping), each region ending at a multiple of its requested
alignment, and (when at least one call happened) the final cursor strictly
below the capacity. -/
theorem StackStorage.runAllocs_spec (reqs : List (Nat × Nat)) :
    ∀ (s sf : StackStorage) (regs : List (Nat × Nat)),
      (∀ r ∈ reqs, 0 < r.2) → s.runAllocs reqs = some (sf, regs) →
      sf.N = s.N ∧ s.start_index_ ≤ sf.start_index_ ∧
      (∀ r ∈ regs, s.start_index_ ≤ r.1 ∧ r.1 + r.2 ≤ sf.start_index_) ∧
      regs.Pairwise (fun r1 r2 => r1.1 + r1.2 ≤ r2.1) ∧
      regs.length = reqs.length ∧
      (∀ p ∈ regs.zip reqs, (p.1.1 + p.1.2) % p.2.2 = 0) ∧
      (sf.start_index_ < sf.N ∨ (regs = [] ∧ sf = s)) := by
  induction reqs with
  | nil =>
    intro s sf regs _ h
    simp only [runAllocs, Option.some.injEq, Prod.mk.injEq] at h
    obtain ⟨rfl, rfl⟩ := h
    simp
  | cons req rest ih =>
    intro s sf regs hpos h
    obtain ⟨count, alignment⟩ := req
    simp only [runAllocs] at h
    split at h
    · exact absurd h (by simp)
    · next s' off hok =>
      split at h
      · exact absurd h (by simp)
      · next sf' regs' hrest =>
        simp only [Option.some.injEq, Prod.mk.injEq] at h
        obtain ⟨rfl, rfl⟩ := h
        have ha : 0 < alignment := hpos (count, alignment) (by simp)
        obtain ⟨hN, hle, hend, hlt, hmod⟩ :=
          s.allocate_ok_spec count alignment ha s' off hok
        obtain ⟨ihN, ihle, ihin, ihpw, ihlen, ihal, ihlt⟩ :=
          ih s' sf' regs' (fun r hr => hpos r (by simp [hr])) hrest
        refine ⟨by omega, by omega, ?_, ?_, by simp [ihlen], ?_, ?_⟩
        · intro r hr
          rcases List.mem_cons.mp hr with rfl | hr
          · exact ⟨hle, by omega⟩
          · obtain ⟨h1, h2⟩ := ihin r hr
            exact ⟨by omega, h2⟩
        · refine List.pairwise_cons.mpr ⟨?_, ihpw⟩
          intro r hr
          have := (ihin r hr).1
          omega
        · intro p hp
          simp only [List.zip_cons_cons, List.mem_cons] at hp
          rcases hp with rfl | hp
          · simpa [hend] using hmod
          · exact ihal p hp
        · left
          rcases ihlt with hgood | ⟨-, rfl⟩
          · exact hgood
          · omega

theorem Heap.mem_setNext (h : Heap T) (a v b : Nat) :
    (h.setNext a v).mem b = if b = a then { h.mem a with next := v } else h.mem b :=
  rfl

theorem Heap.mem_setPrev (h : Heap T) (a v b : Nat) :
    (h.setPrev a v).mem b = if b = a then { h.mem a with prev := v } else h.mem b :=
  rfl

theorem Heap.mem_setVal (h : Heap T) (a : Nat) (v : Option T) (b : Nat) :
    (h.setVal a v).mem b = if b = a then { h.mem a with val := v } else h.mem b :=
  rfl

theorem Heap.mem_writeNode (h : Heap T) (a : Nat) (n : Node T) (b : Nat) :
    (h.writeNode a n).mem b = if b = a then n else h.mem b :=
  rfl

theorem chain_congr {h h' : Heap T} :
    ∀ {p : Nat} {l : List Nat} {q : Nat},
      (∀ x ∈ p :: l, (h'.mem x).next = (h.mem x).next) →
      (∀ x ∈ l ++ [q], (h'.mem x).prev = (h.mem x).prev) →
      chain h p l q → chain h' p l q := by
  intro p l q
  induction l generalizing p with
  | nil =>
    intro hn hp hc
    exact ⟨(hn p (by simp)).trans hc.1, (hp q (by simp)).trans hc.2⟩
  | cons a l ih =>
    intro hn hp hc
    refine ⟨⟨(hn p (by simp)).trans hc.1.1, (hp a (by simp)).trans hc.1.2⟩, ?_⟩
    exact ih (fun x hx => hn x (by simp at hx; simp [hx]))
      (fun x hx => hp x (by simp at hx; simp; tauto)) hc.2

theorem chain_snoc {h : Heap T} :
    ∀ {p : Nat} {l : List Nat} {a q : Nat},
      chain h p (l ++ [a]) q ↔ chain h p l a ∧ link h a q := by
  intro p l a q
  induction l generalizing p with
  | nil => simp [chain]
  | cons b l ih => simp [chain, ih, and_assoc]

/-- The `prev` of the ring's closing node is the last node of the chain. -/
theorem chain_getLast {h : Heap T} :
    ∀ {p : Nat} {l : List Nat} {q : Nat}, chain h p l q →
      link h ((p :: l).getLast (by simp)) q := by
  intro p l q
  induction l generalizing p with
  | nil => intro hc; simpa using hc
  | cons a l ih =>
    intro hc
    simpa [List.getLast_cons] using ih hc.2

theorem WF_frame {h h' : Heap T} {l : ListS} {addrs : List Nat}
    (hw : WF h l addrs)
    (hmem : ∀ x ∈ l.head_ :: addrs, h'.mem x = h.mem x)
    (hctr : h.ctr ≤ h'.ctr) : WF h' l addrs := by
  refine ⟨?_, hw.nodup, hw.size_eq, fun a ha => lt_of_lt_of_le (hw.bound a ha) hctr, ?_⟩
  · refine chain_congr (fun x hx => by rw [hmem x hx]) ?_ hw.ring
    intro x hx
    rw [hmem x ?_]
    simp at hx
    rcases hx with hx | hx
    · simp [hx]
    · simp [hx]
  · intro a ha
    rw [hmem a (by simp [ha])]
    exact hw.vals a ha

/-- Following `next` pointers from the first payload collects exactly the
chain, for any fuel of at least the chain's length. -/
theorem fwd_of_chain {h : Heap T} :
    ∀ {l : List Nat} {p s : Nat}, chain h p l s → s ∉ l →
      ∀ fuel, l.length ≤ fuel → fwdAddrs h s ((h.mem p).next) fuel = l := by
  intro l
  induction l with
  | nil =>
    intro p s hc _ fuel _
    cases fuel with
    | zero => rfl
    | succ n => simp [fwdAddrs, hc.1]
  | cons a l ih =>
    intro p s hc hs fuel hfuel
    cases fuel with
    | zero => simp at hfuel
    | succ n =>
      have hne : a ≠ s := fun hh => hs (hh ▸ by simp)
      simp only [fwdAddrs, hc.1.1, if_neg hne, List.cons.injEq, true_and]
      exact ih hc.2 (fun hh => hs (by simp [hh])) n (by simpa using hfuel)

/-- Exactly `size_` many `operator++` steps take `begin()` to `end()`. -/
theorem stepN_of_chain {h : Heap T} :
    ∀ {l : List Nat} {p s : Nat}, chain h p l s →
      stepN h ((h.mem p).next) l.length = s := by
  intro l
  induction l with
  | nil => intro p s hc; simpa [stepN] using hc.1
  | cons a l ih =>
    intro p s hc
    rw [hc.1.1]
    exact ih hc.2

theorem bwdAddrs_eq_fwd_flip (h : Heap T) (stop : Nat) :
    ∀ fuel a, bwdAddrs h stop a fuel = fwdAddrs (flip h) stop a fuel := by
  intro fuel
  induction fuel with
  | zero => intro a; rfl
  | succ n ih =>
    intro a
    simp only [bwdAddrs, fwdAddrs, ih]
    rfl

theorem chain_flip {h : Heap T} :
    ∀ {l : List Nat} {p q : Nat}, chain h p l q →
      chain (flip h) q l.reverse p := by
  intro l
  induction l with
  | nil => intro p q hc; exact ⟨hc.2, hc.1⟩
  | cons a l ih =>
    intro p q hc
    rw [List.reverse_cons]
    exact chain_snoc.mpr ⟨ih hc.2, hc.1.2, hc.1.1⟩

theorem Heap.next_setNext (h : Heap T) (a v x : Nat) :
    ((h.setNext a v).mem x).next = if x = a then v else (h.mem x).next := by
  by_cases hx : x = a <;> simp [Heap.setNext, hx]

theorem Heap.prev_setNext (h : Heap T) (a v x : Nat) :
    ((h.setNext a v).mem x).prev = (h.mem x).prev := by
  by_cases hx : x = a <;> simp [Heap.setNext, hx]

theorem Heap.val_setNext (h : Heap T) (a v x : Nat) :
    ((h.setNext a v).mem x).val = (h.mem x).val := by
  by_cases hx : x = a <;> simp [Heap.setNext, hx]

theorem Heap.next_setPrev (h : Heap T) (a v x : Nat) :
    ((h.setPrev a v).mem x).next = (h.mem x).next := by
  by_cases hx : x = a <;> simp [Heap.setPrev, hx]

theorem Heap.prev_setPrev (h : Heap T) (a v x : Nat) :
    ((h.setPrev a v).mem x).prev = if x = a then v else (h.mem x).prev := by
  by_cases hx : x = a <;> simp [Heap.setPrev, hx]

theorem Heap.val_setPrev (h : Heap T) (a v x : Nat) :
    ((h.setPrev a v).mem x).val = (h.mem x).val := by
  by_cases hx : x = a <;> simp [Heap.setPrev, hx]

theorem Heap.next_setVal (h : Heap T) (a : Nat) (v : Option T) (x : Nat) :
    ((h.setVal a v).mem x).next = (h.mem x).next := by
  by_cases hx : x = a <;> simp [Heap.setVal, hx]

theorem Heap.prev_setVal (h : Heap T) (a : Nat) (v : Option T) (x : Nat) :
    ((h.setVal a v).mem x).prev = (h.mem x).prev := by
  by_cases hx : x = a <;> simp [Heap.setVal, hx]

theorem Heap.val_setVal (h : Heap T) (a : Nat) (v : Option T) (x : Nat) :
    ((h.setVal a v).mem x).val = if x = a then v else (h.mem x).val := by
  by_cases hx : x = a <;> simp [Heap.setVal, hx]

theorem Node.ext_iff' {n m : Node T} :
    n = m ↔ n.next = m.next ∧ n.prev = m.prev ∧ n.val = m.val := by
  cases n
  cases m
  simp [Node.mk.injEq, and_assoc]

/-- Field anatomy of the successful `InsertHelper` splice at `pos` (writes in
C++ order: the fresh node is filled, then `next->prev` and `prev->next` are
redirected to it). `h.ctr` is the fresh address and `pos->prev` the pre-call
predecessor of the insert position. -/
theorem insertLink_next {h : Heap T} {l : ListS} {pos : Nat} {v : T}
    (hpos : pos ≠ h.ctr) (hP : (h.mem pos).prev ≠ h.ctr) (x : Nat) :
    ((insertLink h l pos v).1.mem x).next =
      if x = (h.mem pos).prev then h.ctr
      else if x = h.ctr then pos else (h.mem x).next := by
  simp only [insertLink, Heap.next_setNext, Heap.prev_setNext,
    Heap.next_setPrev, Heap.prev_setPrev, Heap.mem_writeNode, if_neg hpos]
  by_cases h1 : x = (h.mem pos).prev
  · simp [h1, if_neg hP]
  · by_cases h2 : x = h.ctr
    · simp [h1, h2, Ne.symm hP]
    · simp [h1, h2]

theorem insertLink_prev {h : Heap T} {l : ListS} {pos : Nat} {v : T}
    (hpos : pos ≠ h.ctr) (x : Nat) :
    ((insertLink h l pos v).1.mem x).prev =
      if x = pos then h.ctr
      else if x = h.ctr then (h.mem pos).prev else (h.mem x).prev := by
  simp only [insertLink, Heap.prev_setNext, Heap.prev_setPrev,
    Heap.mem_writeNode, if_neg hpos]
  by_cases h1 : x = pos
  · simp [h1, if_neg hpos]
  · by_cases h2 : x = h.ctr
    · simp [h1, h2, Ne.symm hpos]
    · simp [h1, h2]

theorem insertLink_val {h : Heap T} {l : ListS} {pos : Nat} {v : T} (x : Nat) :
    ((insertLink h l pos v).1.mem x).val =
      if x = h.ctr then some v else (h.mem x).val := by
  simp only [insertLink, Heap.val_setNext, Heap.val_setPrev, Heap.mem_writeNode]
  by_cases h2 : x = h.ctr
  · simp [h2]
  · simp [h2]

theorem insertLink_shape (h : Heap T) (l : ListS) (pos : Nat) (v : T) :
    (insertLink h l pos v).1.ctr = h.ctr + 1 ∧
    (insertLink h l pos v).1.live = h.ctr :: h.live ∧
    (insertLink h l pos v).2 = ⟨l.head_, l.size_ + 1⟩ :=
  ⟨rfl, rfl, rfl⟩

/-- Operation `push_back` appends the freshly allocated node to the ring: the list
stays well formed with the new address at the back; the heap changes only at
the sentinel, the old last node and the fresh address; and no payload other
than the new one is touched. -/
theorem push_back_spec {h : Heap T} {l : ListS} {addrs : List Nat} {v : T}
    (hw : WF h l addrs) :
    WF (push_back h l v).1 (push_back h l v).2 (addrs ++ [h.ctr]) ∧
    (push_back h l v).2 = ⟨l.head_, l.size_ + 1⟩ ∧
    (push_back h l v).1.ctr = h.ctr + 1 ∧
    (push_back h l v).1.live = h.ctr :: h.live ∧
    (∀ x, x ∉ l.head_ :: addrs → x ≠ h.ctr →
      (push_back h l v).1.mem x = h.mem x) ∧
    (∀ x, x ≠ h.ctr → ((push_back h l v).1.mem x).val = (h.mem x).val) ∧
    ((push_back h l v).1.mem h.ctr).val = some v := by
  have hs_lt : l.head_ < h.ctr := hw.bound _ (by simp)
  have hs_ne : l.head_ ≠ h.ctr := Nat.ne_of_lt hs_lt
  have hlast := chain_getLast hw.ring
  have hPeq : (h.mem l.head_).prev = (l.head_ :: addrs).getLast (by simp) :=
    hlast.2
  have hP_mem : (h.mem l.head_).prev ∈ l.head_ :: addrs :=
    hPeq ▸ List.getLast_mem _
  have hP_lt : (h.mem l.head_).prev < h.ctr := hw.bound _ hP_mem
  have hP_ne : (h.mem l.head_).prev ≠ h.ctr := Nat.ne_of_lt hP_lt
  have hnx := insertLink_next (l := l) (v := v) hs_ne hP_ne
  have hpv := insertLink_prev (l := l) (v := v) hs_ne
  have hvl : ∀ x, ((insertLink h l l.head_ v).1.mem x).val =
      if x = h.ctr then some v else (h.mem x).val := fun x =>
    insertLink_val x
  have hbnd : ∀ x ∈ l.head_ :: addrs, x ≠ h.ctr :=
    fun x hx => Nat.ne_of_lt (hw.bound x hx)
  have hpb1 : (push_back h l v).1 = (insertLink h l l.head_ v).1 := rfl
  have hring :
      chain (insertLink h l l.head_ v).1 l.head_ (addrs ++ [h.ctr]) l.head_ := by
    rcases List.eq_nil_or_concat addrs with rfl | ⟨l2, last, hcat⟩
    · have hsP : (h.mem l.head_).prev = l.head_ := hw.ring.2
      refine ⟨⟨?_, ?_⟩, ?_, ?_⟩
      · rw [hnx l.head_]
        simp [hsP]
      · rw [hpv h.ctr]
        simp [Ne.symm hs_ne, hsP]
      · rw [hnx h.ctr]
        simp [Ne.symm hP_ne]
      · rw [hpv l.head_]
        simp
    · rw [List.concat_eq_append] at hcat
      subst hcat
      have hlast_eq : (h.mem l.head_).prev = last := by
        rw [hPeq]
        simp [List.getLast_append]
      have hnodup := hw.nodup
      rw [List.nodup_cons] at hnodup
      have hs_notin : l.head_ ∉ l2 ++ [last] := hnodup.1
      have hnd2 : (l2 ++ [last]).Nodup := hnodup.2
      have hlast_notin : last ∉ l2 := by
        rw [List.nodup_append] at hnd2
        intro hc
        exact hnd2.2.2 hc (by simp)
      obtain ⟨hchain, hlink⟩ := chain_snoc.mp hw.ring
      refine chain_snoc.mpr ⟨chain_snoc.mpr ⟨?_, ?_, ?_⟩, ?_, ?_⟩
      · refine chain_congr ?_ ?_ hchain
        · intro x hx
          rw [hnx x]
          have hxP : x ≠ (h.mem l.head_).prev := by
            rw [hlast_eq]
            rcases List.mem_cons.mp hx with rfl | hx2
            · intro hc
              exact hs_notin (by simp [hc])
            · intro hc
              exact hlast_notin (hc ▸ hx2)
          have hxA : x ≠ h.ctr := by
            rcases List.mem_cons.mp hx with rfl | hx2
            · exact hs_ne
            · exact hbnd x (by simp [hx2])
          rw [if_neg hxP, if_neg hxA]
        · intro x hx
          rw [hpv x]
          simp only [List.mem_append, List.mem_singleton] at hx
          have hxs : x ≠ l.head_ := by
            rcases hx with hx2 | hx2
            · intro hc
              exact hs_notin (by simpa using Or.inl (hc ▸ hx2))
            · intro hc
              have : l.head_ = last := hc ▸ hx2
              exact hs_notin (by simp [this])
          have hxA : x ≠ h.ctr := by
            rcases hx with hx2 | hx2
            · exact hbnd x (by simp [hx2])
            · exact hx2 ▸ hbnd last (by simp)
          rw [if_neg hxs, if_neg hxA]
      · rw [hnx last, hlast_eq, if_pos rfl]
      · rw [hpv h.ctr, if_neg (Ne.symm hs_ne), if_pos rfl, hlast_eq]
      · rw [hnx h.ctr, if_neg (Ne.symm hP_ne), if_pos rfl]
      · rw [hpv l.head_, if_pos rfl]
  have hframe : ∀ x, x ∉ l.head_ :: addrs → x ≠ h.ctr →
      (insertLink h l l.head_ v).1.mem x = h.mem x := by
    intro x hx hxc
    have hx_s : x ≠ l.head_ := fun hc => hx (hc ▸ by simp)
    have hx_P : x ≠ (h.mem l.head_).prev := fun hc => hx (hc ▸ hP_mem)
    rw [Node.ext_iff']
    refine ⟨?_, ?_, ?_⟩
    · rw [hnx x, if_neg hx_P, if_neg hxc]
    · rw [hpv x, if_neg hx_s, if_neg hxc]
    · rw [hvl x, if_neg hxc]
  refine ⟨⟨?_, ?_, ?_, ?_, ?_⟩, rfl, rfl, rfl, hframe, ?_, ?_⟩
  · exact hring
  · show (l.head_ :: (addrs ++ [h.ctr])).Nodup
    have hnew : h.ctr ∉ l.head_ :: addrs := fun hc => absurd rfl (hbnd _ hc)
    rw [show l.head_ :: (addrs ++ [h.ctr]) = (l.head_ :: addrs) ++ [h.ctr] by
      simp]
    rw [List.nodup_append]
    refine ⟨hw.nodup, List.nodup_singleton _, ?_⟩
    intro x hx hx2
    simp only [List.mem_singleton] at hx2
    exact hnew (hx2 ▸ hx)
  · show l.size_ + 1 = (addrs ++ [h.ctr]).length
    simp [hw.size_eq]
  · intro a ha
    show a < h.ctr + 1
    rw [show (push_back h l v).2.head_ = l.head_ from rfl] at ha
    rcases List.mem_cons.mp ha with rfl | ha
    · omega
    · rcases List.mem_append.mp ha with ha | ha
      · have := hw.bound a (by simp [ha])
        omega
      · simp only [List.mem_singleton] at ha
        omega
  · intro a ha
    rw [hpb1, hvl a]
    rcases List.mem_append.mp ha with ha | ha
    · rw [if_neg (hbnd a (by simp [ha]))]
      exact hw.vals a ha
    · simp only [List.mem_singleton] at ha
      simp [ha]
  · intro x hx
    rw [hpb1, hvl x, if_neg hx]
  · rw [hpb1, hvl h.ctr, if_pos rfl]

/-- Field anatomy of `erase` at `pos` (a node that is not its own `next`,
which holds for every payload node of a well-formed ring): the predecessor's
`next` and the successor's `prev` bypass `pos`, and `pos`'s payload is
destroyed. -/
theorem erase_fields {h : Heap T} {l : ListS} {pos : Nat}
    (hne : pos ≠ (h.mem pos).next) :
    (∀ x, ((erase h l pos).1.mem x).next =
      if x = (h.mem pos).prev then (h.mem pos).next else (h.mem x).next) ∧
    (∀ x, ((erase h l pos).1.mem x).prev =
      if x = (h.mem pos).next then (h.mem pos).prev else (h.mem x).prev) ∧
    (∀ x, ((erase h l pos).1.mem x).val =
      if x = pos then none else (h.mem x).val) := by
  have hpp : ((h.setPrev ((h.mem pos).next) ((h.mem pos).prev)).mem pos).prev =
      (h.mem pos).prev := by
    rw [Heap.prev_setPrev, if_neg hne]
  have hpn : ((h.setPrev ((h.mem pos).next) ((h.mem pos).prev)).mem pos).next =
      (h.mem pos).next := by
    rw [Heap.next_setPrev]
  refine ⟨?_, ?_, ?_⟩
  · intro x
    show ((((h.setPrev _ _).setNext _ _).setVal pos none).mem x).next = _
    rw [Heap.next_setVal, Heap.next_setNext, hpp, hpn, Heap.next_setPrev]
  · intro x
    show ((((h.setPrev _ _).setNext _ _).setVal pos none).mem x).prev = _
    rw [Heap.prev_setVal, Heap.prev_setNext, Heap.prev_setPrev]
  · intro x
    show ((((h.setPrev _ _).setNext _ _).setVal pos none).mem x).val = _
    rw [Heap.val_setVal, Heap.val_setNext, Heap.val_setPrev]

theorem erase_shape (h : Heap T) (l : ListS) (pos : Nat) :
    (erase h l pos).1.ctr = h.ctr ∧
    (erase h l pos).1.live = h.live.erase pos ∧
    (erase h l pos).2 = ⟨l.head_, l.size_ - 1⟩ :=
  ⟨rfl, rfl, rfl⟩

/-- Operation `pop_back` removes the last payload node of a non-empty well-formed list:
the list stays well formed without it, the node is handed back to the node
allocator (`live` loses it), the heap changes only on the ring, and no other
payload is touched. -/
theorem pop_back_spec {h : Heap T} {l : ListS} {as : List Nat} {a : Nat}
    (hw : WF h l (as ++ [a])) :
    WF (pop_back h l).1 (pop_back h l).2 as ∧
    (pop_back h l).2 = ⟨l.head_, l.size_ - 1⟩ ∧
    (pop_back h l).1.ctr = h.ctr ∧
    (pop_back h l).1.live = h.live.erase a ∧
    (∀ x, x ∉ l.head_ :: (as ++ [a]) → (pop_back h l).1.mem x = h.mem x) ∧
    (∀ x, x ≠ a → ((pop_back h l).1.mem x).val = (h.mem x).val) := by
  obtain ⟨hchain, hlink⟩ := chain_snoc.mp hw.ring
  have hnodup := hw.nodup
  have hs_ne_a : l.head_ ≠ a := by
    intro hc
    rw [List.nodup_cons] at hnodup
    exact hnodup.1 (by simp [hc])
  have hpos_eq : (h.mem l.head_).prev = a := hlink.2
  have hpb : pop_back h l = erase h l a := by
    unfold pop_back
    rw [hpos_eq]
  have ha_next : (h.mem a).next = l.head_ := hlink.1
  have hne : a ≠ (h.mem a).next := by
    rw [ha_next]
    exact Ne.symm hs_ne_a
  obtain ⟨hnx, hpv, hvl⟩ := erase_fields (l := l) hne
  have hPeq : (h.mem a).prev = (l.head_ :: as).getLast (by simp) :=
    (chain_getLast hchain).2
  have hP_mem : (h.mem a).prev ∈ l.head_ :: as := hPeq ▸ List.getLast_mem _
  have ha_notin : a ∉ l.head_ :: as := by
    intro hc
    rcases List.mem_cons.mp hc with hc | hc
    · exact hs_ne_a hc.symm
    · rw [List.nodup_cons, List.nodup_append] at hnodup
      exact hnodup.2.2.2 hc (by simp)
  have hring : chain (erase h l a).1 l.head_ as l.head_ := by
    rcases List.eq_nil_or_concat as with rfl | ⟨as2, b, hcat⟩
    · have hsP : (h.mem a).prev = l.head_ := by
        rw [hPeq]
        simp
      refine ⟨?_, ?_⟩
      · rw [hnx l.head_, hsP, if_pos rfl, ha_next]
      · rw [hpv l.head_, ha_next, if_pos rfl, hsP]
    · rw [List.concat_eq_append] at hcat
      subst hcat
      have hb_eq : (h.mem a).prev = b := by
        rw [hPeq]
        simp [List.getLast_append]
      rw [List.nodup_cons] at hnodup
      have hs_notin2 : l.head_ ∉ as2 ++ [b] := fun hc =>
        hnodup.1 (by simp at hc ⊢; tauto)
      have hnd2 : (as2 ++ [b ,a]).Nodup := by
        have := hnodup.2
        simpa using this
      have hb_notin : b ∉ as2 := by
        have := hnodup.2
        rw [show as2 ++ [b] ++ [a] = as2 ++ ([b] ++ [a]) by simp,
          List.nodup_append] at this
        intro hc
        exact this.2.2 hc (by simp)
      obtain ⟨hchain2, hlink2⟩ := chain_snoc.mp hchain
      refine chain_snoc.mpr ⟨?_, ?_, ?_⟩
      · refine chain_congr ?_ ?_ hchain2
        · intro x hx
          rw [hnx x, if_neg]
          rw [hb_eq]
          rcases List.mem_cons.mp hx with rfl | hx2
          · intro hc
            exact hs_notin2 (by simp [hc])
          · intro hc
            exact hb_notin (hc ▸ hx2)
        · intro x hx
          rw [hpv x, if_neg]
          rw [ha_next]
          simp only [List.mem_append, List.mem_singleton] at hx
          rcases hx with hx2 | hx2
          · intro hc
            exact hs_notin2 (by simpa using Or.inl (hc ▸ hx2))
          · intro hc
            have : l.head_ = b := hc ▸ hx2
            exact hs_notin2 (by simp [this])
      · rw [hnx b, hb_eq, if_pos rfl, ha_next]
      · rw [hpv l.head_, ha_next, if_pos rfl, hb_eq]
  have hframe : ∀ x, x ∉ l.head_ :: (as ++ [a]) →
      (erase h l a).1.mem x = h.mem x := by
    intro x hx
    have hx_s : x ≠ l.head_ := fun hc => hx (hc ▸ by simp)
    have hx_a : x ≠ a := fun hc => hx (hc ▸ by simp)
    have hx_P : x ≠ (h.mem a).prev := by
      intro hc
      rcases List.mem_cons.mp (hc ▸ hP_mem) with hc2 | hc2
      · exact hx_s hc2
      · exact hx (by simp [hc2])
    rw [Node.ext_iff']
    refine ⟨?_, ?_, ?_⟩
    · rw [hnx x, if_neg hx_P]
    · rw [hpv x, ha_next, if_neg hx_s]
    · rw [hvl x, if_neg hx_a]
  rw [hpb]
  refine ⟨⟨hring, ?_, ?_, ?_, ?_⟩, rfl, rfl, rfl, hframe, ?_⟩
  · show (l.head_ :: as).Nodup
    have hsub : List.Sublist (l.head_ :: as) (l.head_ :: (as ++ [a])) :=
      List.Sublist.cons₂ _ (List.sublist_append_left _ _)
    exact hw.nodup.sublist hsub
  · show l.size_ - 1 = as.length
    have := hw.size_eq
    rw [List.length_append] at this
    simp at this
    omega
  · intro x hx
    show x < h.ctr
    rw [show (erase h l a).2.head_ = l.head_ from rfl] at hx
    rcases List.mem_cons.mp hx with rfl | hx2
    · exact hw.bound _ (by simp)
    · exact hw.bound x (by simp [hx2])
  · intro x hx
    rw [hvl x, if_neg (fun hc => ha_notin (by rw [← hc]; simp [hx]))]
    exact hw.vals x (by simp [hx])
  · intro x hx
    rw [hvl x, if_neg hx]

/-- Heap anatomy of `Swap` between two *empty* well-formed lists (each
sentinel its own neighbor): both sentinels end up self-linked again. -/
theorem Swap_fields_empty {h : Heap T} {l1 l2 : ListS}
    (hs : l1.head_ ≠ l2.head_)
    (h0n : (h.mem l1.head_).next = l1.head_)
    (h0p : (h.mem l1.head_).prev = l1.head_)
    (h1n : (h.mem l2.head_).next = l2.head_)
    (h1p : (h.mem l2.head_).prev = l2.head_) :
    (∀ z, ((Swap h l1 l2).1.mem z).next =
      if z = l2.head_ then l2.head_
      else if z = l1.head_ then l1.head_ else (h.mem z).next) ∧
    (∀ z, ((Swap h l1 l2).1.mem z).prev =
      if z = l2.head_ then l2.head_
      else if z = l1.head_ then l1.head_ else (h.mem z).prev) ∧
    (∀ z, ((Swap h l1 l2).1.mem z).val = (h.mem z).val) := by
  refine ⟨?_, ?_, ?_⟩ <;>
    (intro z
     simp only [Swap, Heap.next_setNext, Heap.prev_setNext, Heap.next_setPrev,
       Heap.prev_setPrev, Heap.val_setNext, Heap.val_setPrev]
     try simp [h0n, h0p, h1n, h1p, hs, Ne.symm hs]) <;>
    try (split_ifs <;> simp_all)

/-- Heap anatomy of `Swap` between two *non-empty* well-formed lists with
disjoint footprints: `a`/`e1` are the first/last payload of `l1`'s ring,
`b`/`e2` those of `l2`'s ring. After the member swaps and the two neighbor
`std::swap`s, each sentinel correctly heads the other ring. -/
theorem Swap_fields_nonempty {h : Heap T} {l1 l2 : ListS} {a e1 b e2 : Nat}
    (hs : l1.head_ ≠ l2.head_)
    (h0n : (h.mem l1.head_).next = a) (h0p : (h.mem l1.head_).prev = e1)
    (h1n : (h.mem l2.head_).next = b) (h1p : (h.mem l2.head_).prev = e2)
    (hap : (h.mem a).prev = l1.head_) (hbp : (h.mem b).prev = l2.head_)
    (he1n : (h.mem e1).next = l1.head_) (he2n : (h.mem e2).next = l2.head_)
    (ha0 : a ≠ l1.head_) (ha1 : a ≠ l2.head_)
    (hb0 : b ≠ l1.head_) (hb1 : b ≠ l2.head_)
    (he10 : e1 ≠ l1.head_) (he11 : e1 ≠ l2.head_)
    (he20 : e2 ≠ l1.head_) (he21 : e2 ≠ l2.head_)
    (hab : a ≠ b) (he12 : e1 ≠ e2) :
    (∀ z, ((Swap h l1 l2).1.mem z).next =
      if z = e1 then l2.head_ else if z = e2 then l1.head_
      else if z = l2.head_ then a
      else if z = l1.head_ then b else (h.mem z).next) ∧
    (∀ z, ((Swap h l1 l2).1.mem z).prev =
      if z = a then l2.head_ else if z = b then l1.head_
      else if z = l2.head_ then e1
      else if z = l1.head_ then e2 else (h.mem z).prev) ∧
    (∀ z, ((Swap h l1 l2).1.mem z).val = (h.mem z).val) := by
  refine ⟨?_, ?_, ?_⟩ <;>
    (intro z
     simp only [Swap, Heap.next_setNext, Heap.prev_setNext, Heap.next_setPrev,
       Heap.prev_setPrev, Heap.val_setNext, Heap.val_setPrev]
     try simp [h0n, h0p, h1n, h1p, hap, hbp, he1n, he2n, hs, Ne.symm hs,
       ha0, ha1, hb0, hb1, he10, he11, he20, he21, hab, he12,
       Ne.symm ha0, Ne.symm ha1, Ne.symm hb0, Ne.symm hb1, Ne.symm he10,
       Ne.symm he11, Ne.symm he20, Ne.symm he21, Ne.symm hab, Ne.symm he12]) <;>
    try (split_ifs <;> simp_all)

/-- Constructor `List()` produces a fresh empty well-formed list; only the fresh address
is written, and the node allocator is untouched. -/
theorem mkList_spec (h : Heap T) :
    WF (mkList h).1 (mkList h).2 [] ∧
    (mkList h).2 = ⟨h.ctr, 0⟩ ∧
    (mkList h).1.ctr = h.ctr + 1 ∧
    (mkList h).1.live = h.live ∧
    (∀ x, x ≠ h.ctr → (mkList h).1.mem x = h.mem x) := by
  refine ⟨⟨?_, ?_, rfl, ?_, ?_⟩, rfl, rfl, rfl, ?_⟩
  · show link (mkList h).1 h.ctr h.ctr
    constructor <;> simp [mkList, Heap.writeNode]
  · simp
  · intro a ha
    simp only [List.mem_singleton] at ha
    show a < h.ctr + 1
    rw [show (mkList h).2.head_ = h.ctr from rfl] at ha
    omega
  · intro a ha
    simp at ha
  · intro x hx
    simp [mkList, Heap.writeNode, hx]

/-- Running `Destroy(size)` on a well-formed list of `size` payload nodes pops them
all from the tail: the list ends empty and well formed, every popped node is
returned to the allocator (`live` loses the ring addresses, most recently
allocated side first), and nothing outside the old footprint is written. -/
theorem Destroy_spec {addrs : List Nat} :
    ∀ {h : Heap T} {l : ListS}, WF h l addrs →
      WF (Destroy h l addrs.length).1 (Destroy h l addrs.length).2 [] ∧
      (Destroy h l addrs.length).2 = ⟨l.head_, 0⟩ ∧
      (Destroy h l addrs.length).1.ctr = h.ctr ∧
      (Destroy h l addrs.length).1.live =
        addrs.reverse.foldl (fun L a => L.erase a) h.live ∧
      (∀ x, x ∉ l.head_ :: addrs →
        (Destroy h l addrs.length).1.mem x = h.mem x) := by
  induction addrs using List.reverseRecOn with
  | nil =>
    intro h l hw
    have hsz := hw.size_eq
    obtain ⟨hd, sz⟩ := l
    simp only [List.length_nil] at hsz
    subst hsz
    exact ⟨hw, rfl, rfl, rfl, fun x _ => rfl⟩
  | append_singleton as a ih =>
    intro h l hw
    obtain ⟨hw1, hl1, hctr1, hlive1, hframe1, -⟩ := pop_back_spec hw
    have hstep : Destroy h l (as ++ [a]).length =
        Destroy (pop_back h l).1 (pop_back h l).2 as.length := by
      rw [List.length_append]
      rfl
    obtain ⟨ihw, ihl, ihctr, ihlive, ihframe⟩ := ih hw1
    rw [hstep]
    have hhd : (pop_back h l).2.head_ = l.head_ := by rw [hl1]
    refine ⟨ihw, ?_, ?_, ?_, ?_⟩
    · rw [ihl, hhd]
    · rw [ihctr, hctr1]
    · rw [ihlive, hlive1]
      simp
    · intro x hx
      have hx1 : x ∉ (pop_back h l).2.head_ :: as := by
        rw [hhd]
        intro hc
        rcases List.mem_cons.mp hc with rfl | hc2
        · exact hx (by simp)
        · exact hx (by simp [hc2])
      rw [ihframe x hx1, hframe1 x (by
        intro hc
        rcases List.mem_cons.mp hc with rfl | hc2
        · exact hx (by simp)
        · exact hx (by simp [hc2]))]

/-- Operation `Swap` between two well-formed lists with disjoint footprints and equal
emptiness (both empty or both non-empty) exchanges the two rings: each
sentinel now heads the other list's payload chain, sizes are exchanged, and
nothing outside the two footprints (and no payload at all) is written. With
*mismatched* emptiness `Swap` corrupts the rings — see the copy-assignment
counterexamples. -/
theorem Swap_spec {h : Heap T} {l1 l2 : ListS} {as1 as2 : List Nat}
    (hw1 : WF h l1 as1) (hw2 : WF h l2 as2)
    (hdisj : ∀ x ∈ l1.head_ :: as1, ∀ y ∈ l2.head_ :: as2, x ≠ y)
    (hsz : (as1 = [] ∧ as2 = []) ∨ (as1 ≠ [] ∧ as2 ≠ [])) :
    WF (Swap h l1 l2).1 (Swap h l1 l2).2.1 as2 ∧
    WF (Swap h l1 l2).1 (Swap h l1 l2).2.2 as1 ∧
    (Swap h l1 l2).2.1 = ⟨l1.head_, l2.size_⟩ ∧
    (Swap h l1 l2).2.2 = ⟨l2.head_, l1.size_⟩ ∧
    (Swap h l1 l2).1.ctr = h.ctr ∧
    (Swap h l1 l2).1.live = h.live ∧
    (∀ x, x ∉ l1.head_ :: as1 → x ∉ l2.head_ :: as2 →
      (Swap h l1 l2).1.mem x = h.mem x) ∧
    (∀ x, ((Swap h l1 l2).1.mem x).val = (h.mem x).val) := by
  have hs : l1.head_ ≠ l2.head_ := hdisj _ (by simp) _ (by simp)
  have hnd1 := hw1.nodup
  have hnd2 := hw2.nodup
  rw [List.nodup_cons] at hnd1 hnd2
  rcases hsz with ⟨rfl, rfl⟩ | ⟨hne1, hne2⟩
  · -- both empty
    have hr1 : link h l1.head_ l1.head_ := hw1.ring
    have hr2 : link h l2.head_ l2.head_ := hw2.ring
    obtain ⟨HN, HP, HV⟩ :=
      Swap_fields_empty hs hr1.1 hr1.2 hr2.1 hr2.2
    have hmemeq : ∀ x, x ≠ l1.head_ → x ≠ l2.head_ →
        (Swap h l1 l2).1.mem x = h.mem x := by
      intro x hx1 hx2
      rw [Node.ext_iff']
      rw [HN x, HP x, HV x, if_neg hx2, if_neg hx1, if_neg hx2, if_neg hx1]
      exact ⟨rfl, rfl, rfl⟩
    refine ⟨⟨?_, ?_, ?_, ?_, by simp⟩, ⟨?_, ?_, ?_, ?_, by simp⟩,
      rfl, rfl, rfl, rfl, ?_, HV⟩
    · show link (Swap h l1 l2).1 l1.head_ l1.head_
      exact ⟨by rw [HN l1.head_, if_neg hs, if_pos rfl],
        by rw [HP l1.head_, if_neg hs, if_pos rfl]⟩
    · show (l1.head_ :: ([] : List Nat)).Nodup
      simp
    · show l2.size_ = ([] : List Nat).length
      exact hw2.size_eq
    · intro x hx
      show x < h.ctr
      rw [show (Swap h l1 l2).2.1.head_ = l1.head_ from rfl] at hx
      simp only [List.mem_singleton] at hx
      rw [hx]
      exact hw1.bound _ (by simp)
    · show link (Swap h l1 l2).1 l2.head_ l2.head_
      exact ⟨by rw [HN l2.head_, if_pos rfl], by rw [HP l2.head_, if_pos rfl]⟩
    · show (l2.head_ :: ([] : List Nat)).Nodup
      simp
    · show l1.size_ = ([] : List Nat).length
      exact hw1.size_eq
    · intro x hx
      show x < h.ctr
      rw [show (Swap h l1 l2).2.2.head_ = l2.head_ from rfl] at hx
      simp only [List.mem_singleton] at hx
      rw [hx]
      exact hw2.bound _ (by simp)
    · intro x hx1 hx2
      exact hmemeq x (by simpa using hx1) (by simpa using hx2)
  · -- both non-empty
    obtain ⟨a, as1', rfl⟩ := List.exists_cons_of_ne_nil hne1
    obtain ⟨b, bs', rfl⟩ := List.exists_cons_of_ne_nil hne2
    have hlast1 := chain_getLast hw1.ring
    have hlast2 := chain_getLast hw2.ring
    have hgl1 : (l1.head_ :: a :: as1').getLast (by simp) =
        (a :: as1').getLast (by simp) := List.getLast_cons (by simp)
    have hgl2 : (l2.head_ :: b :: bs').getLast (by simp) =
        (b :: bs').getLast (by simp) := List.getLast_cons (by simp)
    rw [hgl1] at hlast1
    rw [hgl2] at hlast2
    have he1_mem : (a :: as1').getLast (by simp) ∈ a :: as1' :=
      List.getLast_mem _
    have he2_mem : (b :: bs').getLast (by simp) ∈ b :: bs' :=
      List.getLast_mem _
    have ha_mem : a ∈ a :: as1' := by simp
    have hb_mem : b ∈ b :: bs' := by simp
    have hne_of_1 : ∀ x ∈ a :: as1', x ≠ l1.head_ ∧ x ≠ l2.head_ := by
      intro x hx
      exact ⟨fun hc => hnd1.1 (hc ▸ hx), hdisj x (by simp [hx]) _ (by simp)⟩
    have hne_of_2 : ∀ x ∈ b :: bs', x ≠ l1.head_ ∧ x ≠ l2.head_ := by
      intro x hx
      refine ⟨fun hc => (hdisj l1.head_ (by simp) x (by simp [hx])) hc.symm,
        fun hc => hnd2.1 (hc ▸ hx)⟩
    have hcross : ∀ x ∈ a :: as1', ∀ y ∈ b :: bs', x ≠ y := by
      intro x hx y hy
      exact hdisj x (by simp [hx]) y (by simp [hy])
    obtain ⟨HN, HP, HV⟩ := Swap_fields_nonempty hs
      hw1.ring.1.1 hlast1.2 hw2.ring.1.1 hlast2.2
      hw1.ring.1.2 hw2.ring.1.2 hlast1.1 hlast2.1
      (hne_of_1 a ha_mem).1 (hne_of_1 a ha_mem).2
      (hne_of_2 b hb_mem).1 (hne_of_2 b hb_mem).2
      (hne_of_1 _ he1_mem).1 (hne_of_1 _ he1_mem).2
      (hne_of_2 _ he2_mem).1 (hne_of_2 _ he2_mem).2
      (hcross a ha_mem b hb_mem) (hcross _ he1_mem _ he2_mem)
    have hring1 : chain (Swap h l1 l2).1 l1.head_ (b :: bs') l1.head_ := by
      refine ⟨⟨?_, ?_⟩, ?_⟩
      · rw [HN l1.head_, if_neg (Ne.symm (hne_of_1 _ he1_mem).1),
          if_neg (Ne.symm (hne_of_2 _ he2_mem).1), if_neg hs, if_pos rfl]
      · rw [HP b, if_neg (Ne.symm (hcross a ha_mem b hb_mem)), if_pos rfl]
      · rcases List.eq_nil_or_concat bs' with rfl | ⟨cs, e2c, hcat⟩
        · simp only [List.getLast_singleton] at HN HP
          show link (Swap h l1 l2).1 b l1.head_
          refine ⟨?_, ?_⟩
          · rw [HN b,
              if_neg (fun hc : b = _ => (hcross _ he1_mem b hb_mem) hc.symm),
              if_pos rfl]
          · rw [HP l1.head_, if_neg (Ne.symm (hne_of_1 a ha_mem).1),
              if_neg (Ne.symm (hne_of_2 b hb_mem).1), if_neg hs, if_pos rfl]
        · rw [List.concat_eq_append] at hcat
          subst hcat
          have he2c : (b :: (cs ++ [e2c])).getLast (by simp) = e2c := by
            simp [List.getLast_cons, List.getLast_append]
          rw [he2c] at hlast2 he2_mem HN HP
          have hnd2' : (b :: (cs ++ [e2c])).Nodup := hnd2.2
          have hb_notin : b ∉ cs ++ [e2c] := (List.nodup_cons.mp hnd2').1
          have he2_notin : e2c ∉ b :: cs := by
            have hx : (b :: cs ++ [e2c]).Nodup := by simpa using hnd2'
            rw [List.nodup_append] at hx
            intro hc
            exact hx.2.2 hc (by simp)
          obtain ⟨hchain2, hlink2⟩ := chain_snoc.mp hw2.ring.2
          refine chain_snoc.mpr ⟨?_, ?_, ?_⟩
          · refine chain_congr ?_ ?_ hchain2
            · intro x hx
              have hxin : x ∈ b :: (cs ++ [e2c]) := by
                rcases List.mem_cons.mp hx with rfl | hx2
                · simp
                · simp [hx2]
              rw [HN x,
                if_neg (fun hc : x = _ => (hcross _ he1_mem x hxin) hc.symm),
                if_neg (fun hc : x = e2c => he2_notin (hc ▸ hx)),
                if_neg (hne_of_2 x hxin).2, if_neg (hne_of_2 x hxin).1]
            · intro x hx
              simp only [List.mem_append, List.mem_singleton] at hx
              have hxin : x ∈ b :: (cs ++ [e2c]) := by
                rcases hx with hx2 | rfl
                · simp [hx2]
                · simp
              have hxb : x ≠ b := by
                rcases hx with hx2 | rfl
                · intro hc
                  exact hb_notin (by simpa using Or.inl (hc ▸ hx2))
                · exact fun hc => hb_notin (by simp [hc.symm])
              rw [HP x,
                if_neg (fun hc : x = a => (hcross a ha_mem x hxin) hc.symm),
                if_neg hxb, if_neg (hne_of_2 x hxin).2,
                if_neg (hne_of_2 x hxin).1]
          · rw [HN e2c,
              if_neg (fun hc : e2c = _ => (hcross _ he1_mem _ he2_mem) hc.symm),
              if_pos rfl]
          · rw [HP l1.head_, if_neg (Ne.symm (hne_of_1 a ha_mem).1),
              if_neg (Ne.symm (hne_of_2 b hb_mem).1), if_neg hs, if_pos rfl]
    have hring2 : chain (Swap h l1 l2).1 l2.head_ (a :: as1') l2.head_ := by
      refine ⟨⟨?_, ?_⟩, ?_⟩
      · rw [HN l2.head_, if_neg (Ne.symm (hne_of_1 _ he1_mem).2),
          if_neg (Ne.symm (hne_of_2 _ he2_mem).2), if_pos rfl]
      · rw [HP a, if_pos rfl]
      · rcases List.eq_nil_or_concat as1' with rfl | ⟨cs, e1c, hcat⟩
        · simp only [List.getLast_singleton] at HN HP
          show link (Swap h l1 l2).1 a l2.head_
          refine ⟨?_, ?_⟩
          · rw [HN a, if_pos rfl]
          · rw [HP l2.head_, if_neg (Ne.symm (hne_of_1 a ha_mem).2),
              if_neg (Ne.symm (hne_of_2 b hb_mem).2), if_pos rfl]
        · rw [List.concat_eq_append] at hcat
          subst hcat
          have he1c : (a :: (cs ++ [e1c])).getLast (by simp) = e1c := by
            simp [List.getLast_cons, List.getLast_append]
          rw [he1c] at hlast1 he1_mem HN HP
          have hnd1' : (a :: (cs ++ [e1c])).Nodup := hnd1.2
          have ha_notin : a ∉ cs ++ [e1c] := (List.nodup_cons.mp hnd1').1
          have he1_notin : e1c ∉ a :: cs := by
            have hx : (a :: cs ++ [e1c]).Nodup := by simpa using hnd1'
            rw [List.nodup_append] at hx
            intro hc
            exact hx.2.2 hc (by simp)
          obtain ⟨hchain1, hlink1⟩ := chain_snoc.mp hw1.ring.2
          refine chain_snoc.mpr ⟨?_, ?_, ?_⟩
          · refine chain_congr ?_ ?_ hchain1
            · intro x hx
              have hxin : x ∈ a :: (cs ++ [e1c]) := by
                rcases List.mem_cons.mp hx with rfl | hx2
                · simp
                · simp [hx2]
              rw [HN x, if_neg (fun hc : x = e1c => he1_notin (hc ▸ hx)),
                if_neg (fun hc : x = _ => (hcross x hxin _ he2_mem) hc),
                if_neg (hne_of_1 x hxin).2, if_neg (hne_of_1 x hxin).1]
            · intro x hx
              simp only [List.mem_append, List.mem_singleton] at hx
              have hxin : x ∈ a :: (cs ++ [e1c]) := by
                rcases hx with hx2 | rfl
                · simp [hx2]
                · simp
              have hxa : x ≠ a := by
                rcases hx with hx2 | rfl
                · intro hc
                  exact ha_notin (by simpa using Or.inl (hc ▸ hx2))
                · exact fun hc => ha_notin (by simp [hc.symm])
              rw [HP x, if_neg hxa,
                if_neg (fun hc : x = b => (hcross x hxin b hb_mem) hc),
                if_neg (hne_of_1 x hxin).2, if_neg (hne_of_1 x hxin).1]
          · rw [HN e1c, if_pos rfl]
          · rw [HP l2.head_, if_neg (Ne.symm (hne_of_1 a ha_mem).2),
              if_neg (Ne.symm (hne_of_2 b hb_mem).2), if_pos rfl]
    have hmemeq : ∀ x, x ∉ l1.head_ :: a :: as1' → x ∉ l2.head_ :: b :: bs' →
        (Swap h l1 l2).1.mem x = h.mem x := by
      intro x hx1 hx2
      have hxs0 : x ≠ l1.head_ := fun hc => hx1 (hc ▸ by simp)
      have hxs1 : x ≠ l2.head_ := fun hc => hx2 (hc ▸ by simp)
      have hxa : x ≠ a := fun hc => hx1 (hc ▸ by simp)
      have hxb : x ≠ b := fun hc => hx2 (hc ▸ by simp)
      have hxe1 : x ≠ (a :: as1').getLast (by simp) := fun hc =>
        hx1 (hc ▸ List.mem_cons_of_mem _ he1_mem)
      have hxe2 : x ≠ (b :: bs').getLast (by simp) := fun hc =>
        hx2 (hc ▸ List.mem_cons_of_mem _ he2_mem)
      rw [Node.ext_iff']
      refine ⟨?_, ?_, ?_⟩
      · rw [HN x, if_neg hxe1, if_neg hxe2, if_neg hxs1, if_neg hxs0]
      · rw [HP x, if_neg hxa, if_neg hxb, if_neg hxs1, if_neg hxs0]
      · rw [HV x]
    refine ⟨⟨hring1, ?_, ?_, ?_, ?_⟩, ⟨hring2, ?_, ?_, ?_, ?_⟩,
      rfl, rfl, rfl, rfl, hmemeq, HV⟩
    · show (l1.head_ :: b :: bs').Nodup
      rw [List.nodup_cons]
      refine ⟨?_, hnd2.2⟩
      intro hc
      exact (hdisj l1.head_ (by simp) l1.head_ (by simp [hc])) rfl
    · show l2.size_ = (b :: bs').length
      exact hw2.size_eq
    · intro x hx
      show x < h.ctr
      rw [show (Swap h l1 l2).2.1.head_ = l1.head_ from rfl] at hx
      rcases List.mem_cons.mp hx with rfl | hx2
      · exact hw1.bound _ (by simp)
      · exact hw2.bound x (by simp [hx2])
    · intro x hx
      rw [HV x]
      exact hw2.vals x hx
    · show (l2.head_ :: a :: as1').Nodup
      rw [List.nodup_cons]
      refine ⟨?_, hnd1.2⟩
      intro hc
      exact (hdisj l2.head_ (by simp [hc]) l2.head_ (by simp)) rfl
    · show l1.size_ = (a :: as1').length
      exact hw1.size_eq
    · intro x hx
      show x < h.ctr
      rw [show (Swap h l1 l2).2.2.head_ = l2.head_ from rfl] at hx
      rcases List.mem_cons.mp hx with rfl | hx2
      · exact hw2.bound _ (by simp)
      · exact hw1.bound x (by simp [hx2])
    · intro x hx
      rw [HV x]
      exact hw1.vals x hx

theorem some_getD {α : Type} {o : Option α} (d : α) (ho : o.isSome) :
    some (o.getD d) = o := by
  cases o
  · simp at ho
  · rfl

/-- Erasing, in order, the elements of a prefix from a list removes exactly
that prefix (each erase hits the current head). -/
theorem foldl_erase_append {α : Type} [DecidableEq α] :
    ∀ (xs rest : List α), xs.foldl (fun L a => L.erase a) (xs ++ rest) = rest := by
  intro xs
  induction xs with
  | nil => intro rest; rfl
  | cons x xs ih =>
    intro rest
    simp only [List.cons_append, List.foldl_cons, List.erase_cons_head]
    exact ih rest

/-- A failing `InsertHelper` (allocation failure or payload-constructor
throw) propagates the error and leaves memory, the live-allocation set and
the list header untouched (on a constructor throw the freshly allocated node
is deallocated again, so `live` is restored; only the arena cursor has
advanced, since arena `deallocate` is a no-op). -/
theorem InsertHelper_fail {h : Heap T} {l : ListS} {pos : Nat} {v : T}
    {fm : FailMode} (hfm : fm ≠ .ok) :
    ∃ h', InsertHelper h l pos v fm = .error (h', l) ∧
      h'.mem = h.mem ∧ h'.live = h.live ∧ h.ctr ≤ h'.ctr := by
  cases fm with
  | ok => exact absurd rfl hfm
  | allocFail => exact ⟨h, rfl, rfl, rfl, le_refl _⟩
  | ctorFail =>
    refine ⟨_, rfl, rfl, ?_, ?_⟩
    · show (h.ctr :: h.live).erase h.ctr = h.live
      exact List.erase_cons_head ..
    · show h.ctr ≤ h.ctr + 1
      omega

theorem copyLoop_cons_ok {T : Type} [Inhabited T] (h : Heap T) (l : ListS)
    (a : Nat) (rest : List Nat) (failAt : Nat) :
    copyLoop h l (a :: rest) failAt .ok =
      copyLoop (push_back h l (((h.mem a).val).getD default)).1
        (push_back h l (((h.mem a).val).getD default)).2 rest (failAt - 1)
        .ok := by
  show (match InsertHelper h l l.head_ (((h.mem a).val).getD default)
      (if failAt = 0 then FailMode.ok else FailMode.ok) with
    | .error e => Except.error e
    | .ok (h', l') => copyLoop h' l' rest (failAt - 1) FailMode.ok) = _
  rw [ite_self]
  rfl

theorem copyLoop_cons_succ {T : Type} [Inhabited T] (h : Heap T) (l : ListS)
    (a : Nat) (rest : List Nat) (k : Nat) (fm : FailMode) :
    copyLoop h l (a :: rest) (k + 1) fm =
      copyLoop (push_back h l (((h.mem a).val).getD default)).1
        (push_back h l (((h.mem a).val).getD default)).2 rest k fm := by
  show (match InsertHelper h l l.head_ (((h.mem a).val).getD default)
      (if k + 1 = 0 then fm else FailMode.ok) with
    | .error e => Except.error e
    | .ok (h', l') => copyLoop h' l' rest (k + 1 - 1) fm) = _
  rw [if_neg (Nat.succ_ne_zero k)]
  rfl

theorem fillLoop_succ_succ (h : Heap T) (l : ListS) (v : T) (n k : Nat)
    (fm : FailMode) :
    fillLoop h l v (n + 1) (k + 1) fm =
      fillLoop (push_back h l v).1 (push_back h l v).2 v n k fm := by
  show (match InsertHelper h l l.head_ v
      (if k + 1 = 0 then fm else FailMode.ok) with
    | .error e => Except.error e
    | .ok (h', l') => fillLoop h' l' v n (k + 1 - 1) fm) = _
  rw [if_neg (Nat.succ_ne_zero k)]
  rfl

/-- The success run of the copy loop (`for (value : other) push_back(value)`
with no failure): all source payloads are appended in order to the list under
construction, every new node is fresh (at or above the pre-call cursor), the
nodes are recorded in `live` most recent first, and nothing below the
pre-call cursor outside the ring is written. -/
theorem copyLoop_ok {T : Type} [Inhabited T] (srcAddrs : List Nat) :
    ∀ {h : Heap T} {nl : ListS} (acc : List Nat) (failAt c0 : Nat),
      WF h nl acc → (∀ x ∈ srcAddrs, x < c0) →
      (∀ x ∈ nl.head_ :: acc, c0 ≤ x) → c0 ≤ h.ctr →
      (∀ x ∈ srcAddrs, ((h.mem x).val).isSome) →
      ∃ h2 nl2 newAddrs,
        copyLoop h nl srcAddrs failAt .ok = .ok (h2, nl2) ∧
        WF h2 nl2 (acc ++ newAddrs) ∧
        nl2.head_ = nl.head_ ∧
        h.ctr ≤ h2.ctr ∧
        h2.live = newAddrs.reverse ++ h.live ∧
        (∀ x ∈ newAddrs, c0 ≤ x) ∧
        (∀ x, x < h.ctr → x ∉ nl.head_ :: acc → h2.mem x = h.mem x) ∧
        elemsOf h2 (acc ++ newAddrs) =
          elemsOf h acc ++ srcAddrs.map (fun a => (h.mem a).val) := by
  induction srcAddrs with
  | nil =>
    intro h nl acc failAt c0 hw _ _ _ _
    exact ⟨h, nl, [], rfl, by simpa using hw, rfl, le_refl _, rfl,
      by simp, fun x _ _ => rfl, by simp [elemsOf]⟩
  | cons a rest ih =>
    intro h nl acc failAt c0 hw hsrc hlow hc0 hsv
    have ha_lt : a < c0 := hsrc a (by simp)
    obtain ⟨hw', hl', hctr', hlive', hframe', hvals', hnewval'⟩ :=
      push_back_spec (v := ((h.mem a).val).getD default) hw
    set v := ((h.mem a).val).getD default with hv
    set h' := (push_back h nl v).1 with hh'
    set nl' := (push_back h nl v).2 with hnl'
    have hbnd : ∀ x ∈ nl.head_ :: acc, x < h.ctr := hw.bound
    have hfr_src : ∀ x ∈ a :: rest, h'.mem x = h.mem x := by
      intro x hx
      have hxlt : x < c0 := hsrc x hx
      exact hframe' x (fun hc => absurd (hlow x hc) (by omega))
        (by omega)
    obtain ⟨h2, nl2, newAddrs, hrun, hw2, hhd2, hctr2, hlive2, hnewlow,
        hframe2, helems2⟩ :=
      ih (acc ++ [h.ctr]) (failAt - 1) c0 hw'
        (fun x hx => hsrc x (by simp [hx]))
        (by
          intro x hx
          rw [hl'] at hx
          rcases List.mem_cons.mp hx with rfl | hx2
          · exact hlow _ (by simp)
          · rcases List.mem_append.mp hx2 with hx3 | hx3
            · exact hlow x (by simp [hx3])
            · simp only [List.mem_singleton] at hx3
              omega)
        (by omega)
        (by
          intro x hx
          rw [hfr_src x (by simp [hx])]
          exact hsv x (by simp [hx]))
    refine ⟨h2, nl2, h.ctr :: newAddrs, ?_, ?_, ?_, ?_, ?_, ?_, ?_, ?_⟩
    · rw [copyLoop_cons_ok, ← hv, ← hh', ← hnl']
      exact hrun
    · rw [show acc ++ h.ctr :: newAddrs = (acc ++ [h.ctr]) ++ newAddrs by
        simp]
      exact hw2
    · rw [hhd2, hl']
    · omega
    · rw [hlive2, hlive']
      simp
    · intro x hx
      rcases List.mem_cons.mp hx with rfl | hx2
      · omega
      · exact hnewlow x hx2
    · intro x hxlt hxnin
      rw [hframe2 x (by omega) (by
        rw [hl']
        intro hc
        rcases List.mem_cons.mp hc with rfl | hc2
        · exact hxnin (by simp)
        · rcases List.mem_append.mp hc2 with hc3 | hc3
          · exact hxnin (by simp [hc3])
          · simp only [List.mem_singleton] at hc3
            omega)]
      exact hframe' x hxnin (by omega)
    · rw [show acc ++ h.ctr :: newAddrs = (acc ++ [h.ctr]) ++ newAddrs by
        simp]
      rw [helems2]
      have hacc : elemsOf h' acc = elemsOf h acc := by
        unfold elemsOf
        refine List.map_congr_left ?_
        intro x hx
        rw [hvals' x (Nat.ne_of_lt (hbnd x (by simp [hx])))]
      have hmid : elemsOf h' (acc ++ [h.ctr]) =
          elemsOf h acc ++ [(h.mem a).val] := by
        unfold elemsOf
        rw [List.map_append]
        unfold elemsOf at hacc
        rw [hacc]
        congr 1
        simp only [List.map_cons, List.map_nil, List.cons.injEq, and_true]
        rw [hnewval', hv]
        exact some_getD _ (hsv a (by simp))
      have hrest : rest.map (fun x => (h'.mem x).val) =
          rest.map (fun x => (h.mem x).val) := by
        refine List.map_congr_left ?_
        intro x hx
        rw [hfr_src x (by simp [hx])]
      rw [hmid, hrest]
      simp

/-- The failing run of the copy loop: the first `failAt` pushes succeed, the
`failAt`-th call throws, and the exception escapes carrying the state built
so far. The nodes pushed so far are exactly `newAddrs` (all fresh), `live`
has gained exactly them, and nothing below the pre-call cursor outside the
ring under construction was written. -/
theorem copyLoop_fail {T : Type} [Inhabited T] (srcAddrs : List Nat) :
    ∀ {h : Heap T} {nl : ListS} (acc : List Nat) (failAt c0 : Nat)
      (fm : FailMode),
      WF h nl acc → (∀ x ∈ srcAddrs, x < c0) →
      (∀ x ∈ nl.head_ :: acc, c0 ≤ x) → c0 ≤ h.ctr →
      fm ≠ .ok → failAt < srcAddrs.length →
      ∃ h2 nl2 newAddrs,
        copyLoop h nl srcAddrs failAt fm = .error (h2, nl2) ∧
        WF h2 nl2 (acc ++ newAddrs) ∧
        nl2.head_ = nl.head_ ∧
        h.ctr ≤ h2.ctr ∧
        h2.live = newAddrs.reverse ++ h.live ∧
        (∀ x ∈ newAddrs, c0 ≤ x) ∧
        (∀ x, x < h.ctr → x ∉ nl.head_ :: acc → h2.mem x = h.mem x) := by
  induction srcAddrs with
  | nil =>
    intro h nl acc failAt c0 fm _ _ _ _ _ hflt
    simp at hflt
  | cons a rest ih =>
    intro h nl acc failAt c0 fm hw hsrc hlow hc0 hfm hflt
    cases failAt with
    | zero =>
      cases fm with
      | ok => exact absurd rfl hfm
      | allocFail =>
        exact ⟨h, nl, [], rfl, by simpa using hw, rfl, le_refl _, by simp,
          by simp, fun x _ _ => rfl⟩
      | ctorFail =>
        refine ⟨⟨h.mem, h.ctr + 1, (h.ctr :: h.live).erase h.ctr⟩, nl, [],
          rfl, ?_, rfl, Nat.le_succ _, ?_, by simp, fun x _ _ => rfl⟩
        · have hWF2 : WF (⟨h.mem, h.ctr + 1,
              (h.ctr :: h.live).erase h.ctr⟩ : Heap T) nl acc :=
            WF_frame hw (fun x _ => rfl) (Nat.le_succ _)
          simpa using hWF2
        · simp [List.erase_cons_head]
    | succ k =>
      obtain ⟨hw', hl', hctr', hlive', hframe', hvals', hnewval'⟩ :=
        push_back_spec (v := ((h.mem a).val).getD default) hw
      set v := ((h.mem a).val).getD default with hv
      set h' := (push_back h nl v).1 with hh'
      set nl' := (push_back h nl v).2 with hnl'
      obtain ⟨h2, nl2, newAddrs, hrun, hw2, hhd2, hctr2, hlive2, hnewlow,
          hframe2⟩ :=
        ih (acc ++ [h.ctr]) k c0 fm hw'
          (fun x hx => hsrc x (by simp [hx]))
          (by
            intro x hx
            rw [hl'] at hx
            rcases List.mem_cons.mp hx with rfl | hx2
            · exact hlow _ (by simp)
            · rcases List.mem_append.mp hx2 with hx3 | hx3
              · exact hlow x (by simp [hx3])
              · simp only [List.mem_singleton] at hx3
                omega)
          (by omega) hfm (by simpa using Nat.lt_of_succ_lt_succ hflt)
      refine ⟨h2, nl2, h.ctr :: newAddrs, ?_, ?_, ?_, by omega, ?_, ?_, ?_⟩
      · rw [copyLoop_cons_succ, ← hv, ← hh', ← hnl']
        exact hrun
      · rw [show acc ++ h.ctr :: newAddrs = (acc ++ [h.ctr]) ++ newAddrs by
          simp]
        exact hw2
      · rw [hhd2, hl']
      · rw [hlive2, hlive']
        simp
      · intro x hx
        rcases List.mem_cons.mp hx with rfl | hx2
        · omega
        · exact hnewlow x hx2
      · intro x hxlt hxnin
        rw [hframe2 x (by omega) (by
          rw [hl']
          intro hc
          rcases List.mem_cons.mp hc with rfl | hc2
          · exact hxnin (by simp)
          · rcases List.mem_append.mp hc2 with hc3 | hc3
            · exact hxnin (by simp [hc3])
            · simp only [List.mem_singleton] at hc3
              omega)]
        exact hframe' x hxnin (by omega)

/-- The failing run of the fill loop used by the multi-element constructors:
the first `failAt` pushes of `v` succeed, the `failAt`-th call throws, and
the exception escapes the loop carrying the partially built list, whose
nodes are exactly the `live` entries gained. -/
theorem fillLoop_fail {T : Type} {v : T} :
    ∀ (size : Nat) {h : Heap T} {l : ListS} (acc : List Nat)
      (failAt : Nat) (fm : FailMode),
      WF h l acc → fm ≠ .ok → failAt < size →
      ∃ h2 l2 newAddrs,
        fillLoop h l v size failAt fm = .error (h2, l2) ∧
        WF h2 l2 (acc ++ newAddrs) ∧
        l2.head_ = l.head_ ∧
        h2.live = newAddrs.reverse ++ h.live := by
  intro size
  induction size with
  | zero =>
    intro h l acc failAt fm _ _ hflt
    simp at hflt
  | succ n ih =>
    intro h l acc failAt fm hw hfm hflt
    cases failAt with
    | zero =>
      cases fm with
      | ok => exact absurd rfl hfm
      | allocFail =>
        exact ⟨h, l, [], rfl, by simpa using hw, rfl, by simp⟩
      | ctorFail =>
        refine ⟨⟨h.mem, h.ctr + 1, (h.ctr :: h.live).erase h.ctr⟩, l, [],
          rfl, ?_, rfl, ?_⟩
        · have hWF2 : WF (⟨h.mem, h.ctr + 1,
              (h.ctr :: h.live).erase h.ctr⟩ : Heap T) l acc :=
            WF_frame hw (fun x _ => rfl) (Nat.le_succ _)
          simpa using hWF2
        · simp [List.erase_cons_head]
    | succ k =>
      obtain ⟨hw', hl', hctr', hlive', hframe', hvals', hnewval'⟩ :=
        push_back_spec (v := v) hw
      obtain ⟨h2, l2, newAddrs, hrun, hw2, hhd2, hlive2⟩ :=
        ih (acc ++ [h.ctr]) k fm hw' hfm
          (Nat.lt_of_succ_lt_succ hflt)
      refine ⟨h2, l2, h.ctr :: newAddrs, ?_, ?_, ?_, ?_⟩
      · rw [fillLoop_succ_succ]
        exact hrun
      · rw [show acc ++ h.ctr :: newAddrs = (acc ++ [h.ctr]) ++ newAddrs by
          simp]
        exact hw2
      · rw [hhd2, hl']
      · rw [hlive2, hlive']
        simp

/-- Following `prev` pointers from `head_.prev` (the reverse iteration order)
visits the payload chain backwards. -/
theorem bwd_of_chain {h : Heap T} {l : List Nat} {s : Nat}
    (hc : chain h s l s) (hnd : (s :: l).Nodup) :
    ∀ fuel, l.length ≤ fuel →
      bwdAddrs h s ((h.mem s).prev) fuel = l.reverse := by
  intro fuel hf
  rw [bwdAddrs_eq_fwd_flip]
  have hcf : chain (flip h) s l.reverse s := chain_flip hc
  rw [show (h.mem s).prev = ((flip h).mem s).next from rfl]
  refine fwd_of_chain hcf ?_ fuel (by simpa using hf)
  intro hmem
  exact (List.nodup_cons.mp hnd).1 (by simpa using hmem)

theorem fwdAddrs_congr {h h' : Heap T} (hmem : h'.mem = h.mem) (stop : Nat) :
    ∀ fuel a, fwdAddrs h' stop a fuel = fwdAddrs h stop a fuel := by
  intro fuel
  induction fuel with
  | zero => intro a; rfl
  | succ n ih =>
    intro a
    simp only [fwdAddrs, hmem, ih]

theorem toSeq_congr {h h' : Heap T} {l : ListS} (hmem : h'.mem = h.mem) :
    toSeq h' l = toSeq h l := by
  unfold toSeq elemsOf
  rw [hmem, fwdAddrs_congr hmem]

/-- C3, counterexample to the claim as stated: from a fresh arena of
capacity 100, `allocate(3, 4)` succeeds and returns the region starting at
byte offset 1 (ending at the aligned cursor 4) — the region's *start* is not
aligned to the requested alignment 4. -/
theorem stackStorage_start_alignment_counterexample :
    StackStorage.runAllocs ⟨100, 0⟩ [(3, 4)] =
      some (⟨100, 4⟩, [(1, 3)]) ∧ ¬(1 % 4 = 0) := by
  constructor
  · rfl
  · decide

/-- C3 (amended): for an arena of capacity `N` and any sequence of
successful `allocate(size, alignment)` calls with positive alignments, the
returned regions are pairwise non-overlapping (each ends at or before the
next begins), each returned region's *end* — not its start — is aligned to
that call's requested alignment (so the start is aligned whenever the size
is a multiple of the alignment), and the total number of buffer bytes
consumed, padding included, never exceeds `N`. -/
theorem stackStorage_runAllocs_disjoint_endAligned_bounded
    (N : Nat) (reqs : List (Nat × Nat)) (sf : StackStorage)
    (regs : List (Nat × Nat)) (hpos : ∀ r ∈ reqs, 0 < r.2)
    (hrun : StackStorage.runAllocs ⟨N, 0⟩ reqs = some (sf, regs)) :
    regs.Pairwise (fun r1 r2 => r1.1 + r1.2 ≤ r2.1) ∧
    (∀ p ∈ regs.zip reqs, (p.1.1 + p.1.2) % p.2.2 = 0) ∧
    sf.start_index_ ≤ N := by
  obtain ⟨hN, -, -, hpw, -, hal, hcap⟩ :=
    StackStorage.runAllocs_spec reqs ⟨N, 0⟩ sf regs hpos hrun
  refine ⟨hpw, hal, ?_⟩
  rcases hcap with hlt | ⟨-, rfl⟩
  · have hN2 : sf.N = N := hN
    omega
  · exact Nat.zero_le N

theorem stackStorage_runAllocs_witness :
    (∀ r ∈ [((4 : Nat), (4 : Nat)), (2, 2)], 0 < r.2) ∧
    (List.Pairwise (fun r1 r2 => r1.1 + r1.2 ≤ r2.1) [((0 : Nat), (4 : Nat)), (4, 2)] ∧
     (∀ p ∈ [((0 : Nat), (4 : Nat)), (4, 2)].zip [((4 : Nat), (4 : Nat)), (2, 2)],
        (p.1.1 + p.1.2) % p.2.2 = 0) ∧
     (⟨100, 6⟩ : StackStorage).start_index_ ≤ 100) :=
  ⟨by decide,
    stackStorage_runAllocs_disjoint_endAligned_bounded 100 [(4, 4), (2, 2)]
      ⟨100, 6⟩ [(0, 4), (4, 2)] (by decide) rfl⟩

/-- C6: a failing `allocate` rolls the cursor back to exactly its pre-call
value (the failure state *is* the pre-call state), and from that same state
any request whose padded end fits strictly below the capacity succeeds. -/
theorem stackStorage_allocate_fail_rollback (s : StackStorage)
    (count alignment : Nat) :
    (∀ h', s.allocate count alignment = .error h' → h' = s) ∧
    (∀ c2 a2,
      s.start_index_ + c2 +
        ((a2 - (s.start_index_ + c2) % a2) % a2) < s.N →
      ∃ s2 off, s.allocate c2 a2 = .ok (s2, off)) := by
  constructor
  · intro h' herr
    unfold StackStorage.allocate at herr
    simp only [StackStorage.allocate.N] at herr
    split at herr
    · simp only [Except.error.injEq] at herr
      rw [← herr]
    · exact absurd herr (by simp)
  · intro c2 a2 hfit
    refine ⟨⟨s.N, s.start_index_ + c2 +
        ((a2 - (s.start_index_ + c2) % a2) % a2)⟩,
      s.start_index_ + c2 +
        ((a2 - (s.start_index_ + c2) % a2) % a2) - c2, ?_⟩
    unfold StackStorage.allocate
    simp only [StackStorage.allocate.N]
    rw [if_neg (by omega)]

theorem stackStorage_allocate_fail_rollback_witness :
    (∀ h', (⟨10, 0⟩ : StackStorage).allocate 20 1 = .error h' →
      h' = (⟨10, 0⟩ : StackStorage)) ∧
    ((⟨10, 0⟩ : StackStorage).allocate 20 1 =
      .error (⟨10, 0⟩ : StackStorage)) ∧
    (∃ s2 off, (⟨10, 0⟩ : StackStorage).allocate 4 1 = .ok (s2, off)) :=
  ⟨(stackStorage_allocate_fail_rollback ⟨10, 0⟩ 20 1).1, rfl,
    (stackStorage_allocate_fail_rollback ⟨10, 0⟩ 20 1).2 4 1 (by decide)⟩

/-- C7: two allocator adaptors — of any element types, including one
obtained from the other by the rebinding/converting constructor — compare
equal exactly when they reference the same arena by identity, and a
converted adaptor still references the same arena as its source. -/
theorem stackAllocator_eq_iff_same_storage {T U V : Type}
    (a : StackAllocator T) (b : StackAllocator U) :
    (StackAllocator.op_eq a b = true ↔
      a.stack_storage_ = b.stack_storage_) ∧
    (StackAllocator.op_ne a b = true ↔
      a.stack_storage_ ≠ b.stack_storage_) ∧
    (StackAllocator.ofOther (T := V) a).stack_storage_ = a.stack_storage_ ∧
    (StackAllocator.op_eq (StackAllocator.ofOther (T := V) a) a = true) := by
  refine ⟨?_, ?_, rfl, ?_⟩
  · simp [StackAllocator.op_eq]
  · simp [StackAllocator.op_ne]
  · simp [StackAllocator.op_eq, StackAllocator.ofOther]

theorem stackAllocator_eq_iff_same_storage_witness :
    StackAllocator.op_eq (⟨5⟩ : StackAllocator Nat)
      (⟨5⟩ : StackAllocator Bool) = true ∧
    StackAllocator.op_ne (⟨5⟩ : StackAllocator Nat)
      (⟨7⟩ : StackAllocator Bool) = true :=
  ⟨(stackAllocator_eq_iff_same_storage (V := Nat) ⟨5⟩ ⟨5⟩).1.mpr rfl,
    (stackAllocator_eq_iff_same_storage (V := Nat) ⟨5⟩ ⟨7⟩).2.1.mpr
      (by decide)⟩

/-- C9: a `StackAllocator<T>` request of `count` elements forwards
`count * sizeof(T)` bytes with alignment `alignof(T)`; because `alignof(T)`
divides `sizeof(T)` (a C++ guarantee), the arena's end-of-region alignment
makes the *start* of every successfully returned region aligned for `T`,
even though the raw arena does not guarantee start alignment for arbitrary
sizes. -/
theorem stackAllocator_allocate_start_aligned (s : StackStorage)
    (sizeofT alignofT count : Nat) (s' : StackStorage) (off : Nat)
    (hpos : 0 < alignofT) (hdvd : alignofT ∣ sizeofT)
    (hok : StackAllocator.allocate s sizeofT alignofT count = .ok (s', off)) :
    off % alignofT = 0 := by
  obtain ⟨-, -, hend, -, hmod⟩ :=
    s.allocate_ok_spec (count * sizeofT) alignofT hpos s' off hok
  have hd1 : alignofT ∣ s'.start_index_ := Nat.dvd_of_mod_eq_zero hmod
  have hd2 : alignofT ∣ count * sizeofT := Dvd.dvd.mul_left hdvd count
  have hd3 : alignofT ∣ s'.start_index_ - count * sizeofT :=
    Nat.dvd_sub' hd1 hd2
  have hoff : off = s'.start_index_ - count * sizeofT := by omega
  rw [hoff]
  exact Nat.mod_eq_zero_of_dvd hd3

theorem stackAllocator_allocate_start_aligned_witness :
    StackAllocator.allocate ⟨100, 1⟩ 4 4 2 = .ok (⟨100, 12⟩, 4) ∧
    4 % 4 = 0 :=
  ⟨rfl, stackAllocator_allocate_start_aligned ⟨100, 1⟩ 4 4 2 ⟨100, 12⟩ 4
    (by decide) (by decide) rfl⟩

theorem toSeq_eq_elems {h : Heap T} {l : ListS} {addrs : List Nat}
    (hw : WF h l addrs) : toSeq h l = elemsOf h addrs := by
  unfold toSeq
  rw [fwd_of_chain hw.ring (List.nodup_cons.mp hw.nodup).1 l.size_
    (le_of_eq hw.size_eq.symm)]

/-- C4: if a single-element insert fails at any position — the node
allocation failing with OutOfCapacity, or the payload construction throwing
— then the error propagates, the just-allocated node (if any) has been
released through the node allocator (`live` is unchanged), and the list's
ring linkage, element sequence and `size()` are exactly as before the call. -/
theorem insert_failure_strong_safety {T : Type} {h : Heap T}
    {l : ListS} {addrs : List Nat} (pos : Nat) (v : T) (fm : FailMode)
    (hfm : fm ≠ .ok) (hw : WF h l addrs) :
    ∃ h', InsertHelper h l pos v fm = .error (h', l) ∧
      h'.mem = h.mem ∧ h'.live = h.live ∧ WF h' l addrs ∧
      toSeq h' l = toSeq h l := by
  obtain ⟨h', herr, hmem, hlive, hctr⟩ := InsertHelper_fail hfm
  exact ⟨h', herr, hmem, hlive,
    WF_frame hw (fun x _ => by rw [hmem]) hctr, toSeq_congr hmem⟩

theorem witnessHeap_WF : WF witnessHeap ⟨1, 1⟩ [2] := by
  refine ⟨⟨⟨rfl, rfl⟩, rfl, rfl⟩, by decide, rfl, by decide, by decide⟩

theorem insert_failure_strong_safety_witness :
    ∃ h', InsertHelper witnessHeap ⟨1, 1⟩ 1 (9 : Nat) .allocFail =
        .error (h', ⟨1, 1⟩) ∧
      h'.mem = witnessHeap.mem ∧ h'.live = witnessHeap.live ∧
      WF h' ⟨1, 1⟩ [2] ∧ toSeq h' ⟨1, 1⟩ = toSeq witnessHeap ⟨1, 1⟩ :=
  insert_failure_strong_safety 1 9 .allocFail (by decide) witnessHeap_WF

/-- C8: on a well-formed list, walking `operator++` from `begin()` visits
exactly the payload nodes (so the number of increments from `begin()` to
`end()` is `size()`, and `begin() == end()` exactly when the list is empty),
and walking `operator--` from `end()` (the reverse iteration) visits the
exact reverse sequence. -/
theorem iteration_count_and_reverse {T : Type} {h : Heap T} {l : ListS}
    {addrs : List Nat} (hw : WF h l addrs) :
    fwdAddrs h l.head_ ((h.mem l.head_).next) l.size_ = addrs ∧
    (fwdAddrs h l.head_ ((h.mem l.head_).next) l.size_).length = l.size_ ∧
    stepN h ((h.mem l.head_).next) l.size_ = l.head_ ∧
    ((h.mem l.head_).next = l.head_ ↔ l.size_ = 0) ∧
    bwdAddrs h l.head_ ((h.mem l.head_).prev) l.size_ = addrs.reverse ∧
    elemsOf h (bwdAddrs h l.head_ ((h.mem l.head_).prev) l.size_) =
      (elemsOf h (fwdAddrs h l.head_ ((h.mem l.head_).next) l.size_)).reverse
    := by
  have hnin : l.head_ ∉ addrs := (List.nodup_cons.mp hw.nodup).1
  have hfwd := fwd_of_chain hw.ring hnin l.size_ (le_of_eq hw.size_eq.symm)
  have hbwd := bwd_of_chain hw.ring hw.nodup l.size_ (le_of_eq hw.size_eq.symm)
  refine ⟨hfwd, ?_, ?_, ?_, hbwd, ?_⟩
  · rw [hfwd, hw.size_eq]
  · rw [hw.size_eq]
    exact stepN_of_chain hw.ring
  · constructor
    · intro heq
      cases haddrs : addrs with
      | nil => rw [hw.size_eq, haddrs]; rfl
      | cons a as =>
        exfalso
        have : (h.mem l.head_).next = a := by
          have := hw.ring
          rw [haddrs] at this
          exact this.1.1
        rw [heq] at this
        exact hnin (by rw [haddrs, ← this]; simp)
    · intro hz
      have : addrs = [] := by
        have := hw.size_eq
        rw [hz] at this
        exact (List.length_eq_zero.mp this.symm)
      have hr := hw.ring
      rw [this] at hr
      exact hr.1
  · rw [hfwd, hbwd]
    unfold elemsOf
    rw [List.map_reverse]

theorem iteration_count_and_reverse_witness :
    fwdAddrs witnessHeap 1 ((witnessHeap.mem 1).next) 1 = [2] ∧
    (fwdAddrs witnessHeap 1 ((witnessHeap.mem 1).next) 1).length = 1 ∧
    stepN witnessHeap ((witnessHeap.mem 1).next) 1 = 1 ∧
    ((witnessHeap.mem 1).next = 1 ↔ 1 = 0) ∧
    bwdAddrs witnessHeap 1 ((witnessHeap.mem 1).prev) 1 = [2].reverse ∧
    elemsOf witnessHeap (bwdAddrs witnessHeap 1 ((witnessHeap.mem 1).prev) 1)
      = (elemsOf witnessHeap
          (fwdAddrs witnessHeap 1 ((witnessHeap.mem 1).next) 1)).reverse :=
  iteration_count_and_reverse (l := ⟨1, 1⟩) witnessHeap_WF

/-- C1 (code bug): the source list holds the sequence `[5]` and the target
is empty; running `operator=` completes without error, and the target then
reports `size() == 1` while `begin() == end()`, so iterating it yields `[]`
— the copy is *not* element-wise equal to the source. The culprit is
`List::Swap`: its neighbor-fixup `std::swap`s mis-link the rings when
exactly one of the two lists is empty. -/
theorem copy_assignment_onto_empty_list_bug :
    toSeq bugScene.1 bugScene.2.1 = [some 5] ∧
    (op_assign bugScene.1 bugScene.2.2 bugScene.2.1 0 .ok).toOption.map
      (fun r => (r.2.size_, toSeq r.1 r.2,
        decide ((r.1.mem r.2.head_).next = r.2.head_))) =
      some (1, [], true) := by
  decide

/-- C2 (code bug): after the same completed copy assignment (empty target,
one-element source) the ring invariant is violated: the target's sentinel
`X` has `X.next.prev ≠ X`, and the number of payload nodes on its ring (0)
differs from `size()` (1). -/
theorem ring_invariant_broken_by_copy_assignment :
    (op_assign bugScene.1 bugScene.2.2 bugScene.2.1 0 .ok).toOption.map
      (fun r => (r.2.size_,
        decide ((r.1.mem ((r.1.mem r.2.head_).next)).prev = r.2.head_),
        (fwdAddrs r.1 r.2.head_ ((r.1.mem r.2.head_).next) r.2.size_).length))
      = some (1, false, 0) := by
  decide

/-- C5: exception safety of multi-element construction. (a) The fill
constructors (`List(n, alloc)` and `List(n, value, alloc)`): if the
`failAt`-th element's construction fails, the previously built elements are
destroyed and their nodes released by repeated pop-from-tail before the
error propagates, leaving the node allocator's live set exactly as before.
(b) The copy constructor behaves the same. (c) For copy assignment, a
failure while populating the temporary releases everything allocated and
leaves the assignment target's well-formedness, element sequence and
`size()` unchanged. -/
theorem multi_element_construction_rollback {T : Type} [Inhabited T] :
    (∀ (h : Heap T) (v : T) (size failAt : Nat) (fm : FailMode),
      fm ≠ .ok → failAt < size →
      ∃ h2, ctorFill h v size failAt fm = .error h2 ∧ h2.live = h.live) ∧
    (∀ (h : Heap T) (src : ListS) (saddrs : List Nat) (failAt : Nat)
      (fm : FailMode), WF h src saddrs → fm ≠ .ok → failAt < src.size_ →
      ∃ h2, copy_ctor h src failAt fm = .error h2 ∧ h2.live = h.live) ∧
    (∀ (h : Heap T) (tgt src : ListS) (taddrs saddrs : List Nat)
      (failAt : Nat) (fm : FailMode), WF h tgt taddrs → WF h src saddrs →
      fm ≠ .ok → failAt < src.size_ →
      ∃ h2, op_assign h tgt src failAt fm = .error (h2, tgt) ∧
        h2.live = h.live ∧ WF h2 tgt taddrs ∧
        toSeq h2 tgt = toSeq h tgt) := by
  refine ⟨?_, ?_, ?_⟩
  · -- fill constructors
    intro h v size failAt fm hfm hflt
    obtain ⟨hwnl, hnl, hctr1, hlive1, hframe1⟩ := mkList_spec h
    obtain ⟨h2, l2, newAddrs, hrun, hw2, hhd2, hlive2⟩ :=
      fillLoop_fail (v := v) size [] failAt fm hwnl hfm hflt
    refine ⟨(Destroy h2 l2 l2.size_).1, ?_, ?_⟩
    · simp only [ctorFill]
      rw [hrun]
    · rw [hw2.size_eq]
      obtain ⟨-, -, -, hdlive, -⟩ := Destroy_spec hw2
      rw [hdlive, hlive2, hlive1]
      simp only [List.nil_append]
      exact foldl_erase_append _ _
  · -- copy constructor
    intro h src saddrs failAt fm hwsrc hfm hflt
    have hnin : src.head_ ∉ saddrs := (List.nodup_cons.mp hwsrc.nodup).1
    have haddrs : fwdAddrs h src.head_ ((h.mem src.head_).next) src.size_ =
        saddrs := fwd_of_chain hwsrc.ring hnin _ (le_of_eq hwsrc.size_eq.symm)
    obtain ⟨hwnl, hnl, hctr1, hlive1, hframe1⟩ := mkList_spec h
    obtain ⟨h2, l2, newAddrs, hrun, hw2, hhd2, hctr2, hlive2, hnewlow,
        hframe2⟩ :=
      copyLoop_fail saddrs [] failAt h.ctr fm hwnl
        (fun x hx => hwsrc.bound x (by simp [hx]))
        (by
          intro x hx
          simp only [List.mem_singleton] at hx
          subst hx
          exact Nat.le_refl _)
        (by rw [hctr1]; omega) hfm
        (by rw [← hwsrc.size_eq]; exact hflt)
    refine ⟨(Destroy h2 l2 l2.size_).1, ?_, ?_⟩
    · simp only [copy_ctor]
      rw [haddrs, hrun]
    · rw [hw2.size_eq]
      obtain ⟨-, -, -, hdlive, -⟩ := Destroy_spec hw2
      rw [hdlive, hlive2, hlive1]
      simp only [List.nil_append]
      exact foldl_erase_append _ _
  · -- copy assignment
    intro h tgt src taddrs saddrs failAt fm hwtgt hwsrc hfm hflt
    have hnin : src.head_ ∉ saddrs := (List.nodup_cons.mp hwsrc.nodup).1
    have haddrs : fwdAddrs h src.head_ ((h.mem src.head_).next) src.size_ =
        saddrs := fwd_of_chain hwsrc.ring hnin _ (le_of_eq hwsrc.size_eq.symm)
    obtain ⟨hwnl, hnl, hctr1, hlive1, hframe1⟩ := mkList_spec h
    obtain ⟨h2, l2, newAddrs, hrun, hw2, hhd2, hctr2, hlive2, hnewlow,
        hframe2⟩ :=
      copyLoop_fail saddrs [] failAt h.ctr fm hwnl
        (fun x hx => hwsrc.bound x (by simp [hx]))
        (by
          intro x hx
          simp only [List.mem_singleton] at hx
          subst hx
          exact Nat.le_refl _)
        (by rw [hctr1]; omega) hfm
        (by rw [← hwsrc.size_eq]; exact hflt)
    have hctr1' : h.ctr ≤ (mkList h).1.ctr := by rw [hctr1]; omega
    have hmem_low : ∀ x, x < h.ctr → h2.mem x = h.mem x := by
      intro x hxlt
      rw [hframe2 x (by omega) (by
        rw [hnl]
        intro hc
        rcases List.mem_cons.mp hc with hc2 | hc2
        · exact absurd hc2 (by
            show x ≠ ((⟨h.ctr, 0⟩ : ListS)).head_
            show x ≠ h.ctr
            omega)
        · simp at hc2)]
      exact hframe1 x (by omega)
    obtain ⟨hwD, hD2, hDctr, hDlive, hDframe⟩ := Destroy_spec hw2
    have hcnt : l2.size_ = ([] ++ newAddrs).length := hw2.size_eq
    refine ⟨(Destroy h2 l2 l2.size_).1, ?_, ?_, ?_, ?_⟩
    · simp only [op_assign]
      rw [haddrs, hrun]
    · rw [hcnt]
      rw [hDlive, hlive2, hlive1]
      simp only [List.nil_append]
      exact foldl_erase_append _ _
    · have hmemfin : ∀ x ∈ tgt.head_ :: taddrs,
          (Destroy h2 l2 l2.size_).1.mem x = h.mem x := by
        intro x hx
        have hxlt : x < h.ctr := hwtgt.bound x hx
        rw [hcnt]
        rw [hDframe x (by
          rw [hhd2, hnl]
          intro hc
          rcases List.mem_cons.mp hc with hc2 | hc2
          · exact absurd hc2 (by
              show x ≠ ((⟨h.ctr, 0⟩ : ListS)).head_
              show x ≠ h.ctr
              omega)
          · simp only [List.nil_append] at hc2
            have := hnewlow x hc2
            omega)]
        exact hmem_low x hxlt
      exact WF_frame hwtgt hmemfin (by
        rw [hcnt, hDctr]
        omega)
    · have hmemfin : ∀ x ∈ tgt.head_ :: taddrs,
          (Destroy h2 l2 l2.size_).1.mem x = h.mem x := by
        intro x hx
        have hxlt : x < h.ctr := hwtgt.bound x hx
        rw [hcnt]
        rw [hDframe x (by
          rw [hhd2, hnl]
          intro hc
          rcases List.mem_cons.mp hc with hc2 | hc2
          · exact absurd hc2 (by
              show x ≠ ((⟨h.ctr, 0⟩ : ListS)).head_
              show x ≠ h.ctr
              omega)
          · simp only [List.nil_append] at hc2
            have := hnewlow x hc2
            omega)]
        exact hmem_low x hxlt
      have hwfin : WF (Destroy h2 l2 l2.size_).1 tgt taddrs :=
        WF_frame hwtgt hmemfin (by rw [hcnt, hDctr]; omega)
      rw [toSeq_eq_elems hwfin, toSeq_eq_elems hwtgt]
      unfold elemsOf
      refine List.map_congr_left ?_
      intro x hx
      rw [hmemfin x (by simp [hx])]

theorem multi_element_construction_rollback_witness :
    ∃ h2, ctorFill witnessHeap (0 : Nat) 2 1 FailMode.allocFail =
        .error h2 ∧ h2.live = witnessHeap.live :=
  (multi_element_construction_rollback (T := Nat)).1 witnessHeap 0 2 1
    .allocFail (by decide) (by decide)

/-- C10: self-assignment `l = l` that completes without error (modelled by
`op_assign` with the success oracle) leaves the list's element sequence,
`size()` and ring well-formedness unchanged: the list ends up well formed
over the freshly copied nodes with the same payload sequence. Both the
empty and non-empty cases go through `Swap` with *matching* emptiness, the
only configurations it handles correctly. -/
theorem self_assignment_noop {T : Type} [Inhabited T] (h : Heap T)
    (l : ListS) (addrs : List Nat) (failAt : Nat) (hw : WF h l addrs) :
    ∃ h' l' newAddrs,
      op_assign h l l failAt .ok = .ok (h', l') ∧
      WF h' l' newAddrs ∧ l'.head_ = l.head_ ∧ l'.size_ = l.size_ ∧
      toSeq h' l' = toSeq h l := by
  have hnin : l.head_ ∉ addrs := (List.nodup_cons.mp hw.nodup).1
  have haddrs : fwdAddrs h l.head_ ((h.mem l.head_).next) l.size_ = addrs :=
    fwd_of_chain hw.ring hnin _ (le_of_eq hw.size_eq.symm)
  obtain ⟨hwnl, hnl, hctr1, hlive1, hframe1⟩ := mkList_spec h
  have hw1 : WF (mkList h).1 l addrs :=
    WF_frame hw (fun x hx => hframe1 x (Nat.ne_of_lt (hw.bound x hx)))
      (by rw [hctr1]; omega)
  obtain ⟨h2, nl2, newAddrs, hrun, hw2, hhd2, hctr2, hlive2, hnewlow,
      hframe2, helems2⟩ :=
    copyLoop_ok addrs [] failAt h.ctr hwnl
      (fun x hx => hw.bound x (List.mem_cons_of_mem _ hx))
      (by
        intro x hx
        simp only [List.mem_singleton] at hx
        subst hx
        exact Nat.le_refl _)
      (by rw [hctr1]; omega)
      (by
        intro x hx
        rw [hframe1 x (Nat.ne_of_lt (hw.bound x (List.mem_cons_of_mem _ hx)))]
        exact hw.vals x hx)
  have hw2nl : WF h2 nl2 newAddrs := by simpa using hw2
  have hw2l : WF h2 l addrs := by
    refine WF_frame hw1 ?_ hctr2
    intro x hx
    refine hframe2 x ?_ ?_
    · rw [hctr1]
      exact Nat.lt_succ_of_lt (hw.bound x hx)
    · rw [hnl]
      intro hc
      rcases List.mem_cons.mp hc with hc2 | hc2
      · exact absurd hc2 (show x ≠ (⟨h.ctr, 0⟩ : ListS).head_ from
          Nat.ne_of_lt (hw.bound x hx))
      · simp at hc2
  have hlen : newAddrs.length = addrs.length := by
    have hlg := congrArg List.length helems2
    simp only [elemsOf, List.length_map, List.length_append,
      List.nil_append, List.length_nil] at hlg
    omega
  have hnl2head : nl2.head_ = h.ctr := by rw [hhd2, hnl]
  have hnd2 : nl2.head_ ∉ newAddrs := (List.nodup_cons.mp hw2nl.nodup).1
  have hdisj : ∀ x ∈ l.head_ :: addrs, ∀ y ∈ nl2.head_ :: newAddrs,
      x ≠ y := by
    intro x hx y hy
    have hxlt : x < h.ctr := hw.bound x hx
    rcases List.mem_cons.mp hy with rfl | hy2
    · rw [hnl2head]
      omega
    · have := hnewlow y hy2
      omega
  have hsz : (addrs = [] ∧ newAddrs = []) ∨
      (addrs ≠ [] ∧ newAddrs ≠ []) := by
    cases haa : addrs with
    | nil =>
      left
      refine ⟨rfl, ?_⟩
      rw [← List.length_eq_zero, hlen, haa]
      rfl
    | cons a as =>
      right
      refine ⟨by simp, ?_⟩
      intro hc
      rw [hc, haa] at hlen
      simp at hlen
  obtain ⟨hwA, hwB, hA, hB, hctr3, hlive3, hframe3, hval3⟩ :=
    Swap_spec hw2l hw2nl hdisj hsz
  have hszB : (Swap h2 l nl2).2.2.size_ = addrs.length := by
    rw [hB]
    exact hw.size_eq
  obtain ⟨hwD, hD2, hDctr, hDlive, hDframe⟩ := Destroy_spec hwB
  have hfinframe : ∀ x ∈ (Swap h2 l nl2).2.1.head_ :: newAddrs,
      (Destroy (Swap h2 l nl2).1 (Swap h2 l nl2).2.2 addrs.length).1.mem x =
        (Swap h2 l nl2).1.mem x := by
    intro x hx
    refine hDframe x ?_
    rw [hB]
    intro hc
    rcases List.mem_cons.mp hc with hc2 | hc2
    · have h2c : x = nl2.head_ := hc2
      rcases List.mem_cons.mp hx with hx2 | hx2
      · rw [hA] at hx2
        have hxl : x = l.head_ := hx2
        have : l.head_ < h.ctr := hw.bound _ (by simp)
        rw [hnl2head] at h2c
        omega
      · exact hnd2 (h2c ▸ hx2)
    · rcases List.mem_cons.mp hx with hx2 | hx2
      · rw [hA] at hx2
        have hxl : x = l.head_ := hx2
        exact hnin (hxl ▸ hc2)
      · have := hnewlow x hx2
        have := hw.bound x (by simp [hc2])
        omega
  have hwfin : WF (Destroy (Swap h2 l nl2).1 (Swap h2 l nl2).2.2
      addrs.length).1 (Swap h2 l nl2).2.1 newAddrs :=
    WF_frame hwA hfinframe (le_of_eq hDctr.symm)
  have helems_h2 : elemsOf h2 newAddrs = elemsOf h addrs := by
    have h1 := helems2
    simp only [List.nil_append] at h1
    rw [h1]
    simp only [elemsOf, List.map_nil, List.nil_append]
    refine List.map_congr_left ?_
    intro x hx
    rw [hframe1 x (Nat.ne_of_lt (hw.bound x (List.mem_cons_of_mem _ hx)))]
  have helems_h3 : elemsOf (Swap h2 l nl2).1 newAddrs =
      elemsOf h2 newAddrs := by
    unfold elemsOf
    refine List.map_congr_left ?_
    intro x hx
    rw [hval3 x]
  have helems_fin : elemsOf (Destroy (Swap h2 l nl2).1
      (Swap h2 l nl2).2.2 addrs.length).1 newAddrs =
      elemsOf (Swap h2 l nl2).1 newAddrs := by
    unfold elemsOf
    refine List.map_congr_left ?_
    intro x hx
    rw [hfinframe x (by simp [hx])]
  have hassign : op_assign h l l failAt .ok =
      .ok ((Destroy (Swap h2 l nl2).1 (Swap h2 l nl2).2.2
        (Swap h2 l nl2).2.2.size_).1, (Swap h2 l nl2).2.1) := by
    simp only [op_assign]
    rw [haddrs, hrun]
  rw [hszB] at hassign
  refine ⟨_, _, newAddrs, hassign, hwfin, ?_, ?_, ?_⟩
  · rw [hA]
  · rw [hA]
    show nl2.size_ = l.size_
    rw [hw2nl.size_eq, hlen, hw.size_eq]
  · rw [toSeq_eq_elems hwfin, toSeq_eq_elems hw]
    rw [helems_fin, helems_h3, helems_h2]

theorem self_assignment_noop_witness :
    ∃ h' l' newAddrs,
      op_assign witnessHeap ⟨1, 1⟩ ⟨1, 1⟩ 0 .ok = .ok (h', l') ∧
      WF h' l' newAddrs ∧ l'.head_ = (⟨1, 1⟩ : ListS).head_ ∧
      l'.size_ = (⟨1, 1⟩ : ListS).size_ ∧
      toSeq h' l' = toSeq witnessHeap ⟨1, 1⟩ :=
  self_assignment_noop witnessHeap ⟨1, 1⟩ [2] 0 witnessHeap_WF

end ListHpp
